import Mathlib

/-!
Shallow embedding of src/Assignment_2_Paths.py: a weighted graph in
adjacency-map style, an adaptable priority queue (class APQ over class
Element), the dijkstra function, and the RouteMap specialization with its
sp path reporter.  Python dicts become insertion-ordered association
lists, Python object identity becomes a numeric id field assigned from a
counter (vid for Vertex, eid for Edge and for heap Elements), Python
numbers become Int, and fallible Python code (IndexError, KeyError,
attribute access on None) returns Option or Except values.  Negative list
subscripts and floor division are modelled exactly as Python evaluates
them, since the reference code reaches both.
-/

namespace DSM

/-- Labels carried by vertices (the data element of a vertex).  The source
feeds int node ids to the graph; we fix the label type to Nat. -/
abbrev L := Nat

/-- Failure modes of the reference code when modelled purely.  keyError
models a Python KeyError, indexError an IndexError, attrError an
AttributeError (attribute access on None or on an int), fuelOut stands for
a loop iteration bound being exhausted.  The unreachable constructor is
the typed error the specification document requires for path
reconstruction; the reference code never produces it, which is what the
error-handling claims are about. -/
inductive Err where
  | keyError
  | indexError
  | attrError
  | unreachable
  | fuelOut
deriving DecidableEq

deriving instance DecidableEq for Except

/-! Python dict as an insertion-ordered association list: lookup finds the
first (hence only) binding, update keeps the position of an existing key,
insertion appends, pop removes the binding and returns its value. -/

section Dict

variable {A B : Type} [DecidableEq A]

/-- Lookup in a Python dict: first binding of the key, if any. -/
def dget : List (A × B) → A → Option B
  | [], _ => none
  | p :: t, k => if p.1 = k then some p.2 else dget t k

/-- Assignment d[k] = v on a Python dict: update in place or append. -/
def dput : List (A × B) → A → B → List (A × B)
  | [], k, v => [(k, v)]
  | p :: t, k, v => if p.1 = k then (p.1, v) :: t else p :: dput t k v

/-- d.pop(k) on a Python dict: value and remaining dict, or KeyError. -/
def dpop : List (A × B) → A → Option (B × List (A × B))
  | [], _ => none
  | p :: t, k =>
    if p.1 = k then some (p.2, t)
    else (dpop t k).map (fun r => (r.1, p :: r.2))

/-- Keys of the dict, in insertion order. -/
def dkeys (m : List (A × B)) : List A := m.map (·.1)

end Dict

/-! The vertex and edge value objects.  Python compares Vertex and Edge
objects by identity (no custom eq on them), which the vid and eid counter
fields reproduce: two objects created by distinct constructor calls never
compare equal. -/

/-- Vertex of the source: wraps a data element; vid models Python object
identity (fresh per add_vertex call). -/
structure Vertex where
  vid : Nat
  elem : L
deriving DecidableEq

/-- Edge of the source: ordered pair of vertices plus a numeric element
(the traversal cost); eid models Python object identity. -/
structure Edge where
  eid : Nat
  va : Vertex
  vb : Vertex
  elem : Int
deriving DecidableEq

/-- Edge.start of the source: first vertex of the ordered pair. -/
def Edge.start (e : Edge) : Vertex := e.va

/-- Edge.opposite of the source: the other endpoint, or None. -/
def Edge.opposite (e : Edge) (v : Vertex) : Option Vertex :=
  if e.va = v then some e.vb
  else if e.vb = v then some e.va
  else none

/-- Adjacency-map structure of the Graph class: dict Vertex -> (dict
neighbour-Vertex -> Edge). -/
abbrev Adj := List (Vertex × List (Vertex × Edge))

/-- Graph of the source.  struct is the _structure dict; vctr and ectr are
the identity counters backing Vertex and Edge creation. -/
structure Graph where
  struct : Adj
  vctr : Nat
  ectr : Nat
deriving DecidableEq

/-- The empty graph, as built by the Graph constructor. -/
def Graph.empty : Graph := ⟨[], 0, 0⟩

/-- Graph.num_vertices of the source. -/
def Graph.num_vertices (g : Graph) : Nat := g.struct.length

/-- Graph.num_edges of the source: total adjacency size floor-halved. -/
def Graph.num_edges (g : Graph) : Nat :=
  (g.struct.map (fun p => p.2.length)).sum / 2

/-- Graph.vertices of the source. -/
def Graph.vertices (g : Graph) : List Vertex := dkeys g.struct

/-- Graph.get_vertex_by_label of the source: first vertex whose element
matches, None on miss. -/
def Graph.get_vertex_by_label (g : Graph) (element : L) : Option Vertex :=
  (g.struct.find? (fun p => p.1.elem = element)).map (·.1)

/-- Graph.get_edges of the source: all edges incident on v, None if v is
not a vertex of the graph. -/
def Graph.get_edges (g : Graph) (v : Vertex) : Option (List Edge) :=
  (dget g.struct v).map (fun m => m.map (·.2))

/-- Graph.get_edge of the source: the edge stored for the ordered pair
(v, w), or None. -/
def Graph.get_edge (g : Graph) (v w : Vertex) : Option Edge := do
  let m ← dget g.struct v
  dget m w

/-- Graph.degree of the source; Python raises KeyError on an absent
vertex, modelled as none. -/
def Graph.degree (g : Graph) (v : Vertex) : Option Nat :=
  (dget g.struct v).map List.length

/-- Graph.edges of the source: deduplicate by returning an edge only from
the endpoint equal to its start. -/
def Graph.edges (g : Graph) : List Edge :=
  g.struct.flatMap (fun p =>
    (p.2.filter (fun q => q.2.start = p.1)).map (·.2))

/-- Graph.add_vertex of the source: always creates a fresh vertex. -/
def Graph.add_vertex (g : Graph) (element : L) : Graph × Vertex :=
  let v : Vertex := ⟨g.vctr, element⟩
  (⟨g.struct ++ [(v, [])], g.vctr + 1, g.ectr⟩, v)

/-- Graph.add_vertex_if_new of the source: linear scan by element. -/
def Graph.add_vertex_if_new (g : Graph) (element : L) : Graph × Vertex :=
  match (g.struct.find? (fun p => p.1.elem = element)).map (·.1) with
  | some v => (g, v)
  | none => g.add_vertex element

/-- Assignment structure[v][w] = e of the source: update the inner dict of
every outer binding whose key is v (at most one in any reachable graph). -/
def adjPut (adj : Adj) (v w : Vertex) (e : Edge) : Adj :=
  adj.map (fun p => if p.1 = v then (p.1, dput p.2 w e) else p)

/-- Graph.add_edge of the source: None (graph unchanged) if an endpoint is
absent; otherwise store the new edge under (v, w), and under (w, v) too
unless oneway or v = w. -/
def Graph.add_edge (g : Graph) (v w : Vertex) (element : Int)
    (oneway : Bool) : Graph × Option Edge :=
  if (dget g.struct v).isNone ∨ (dget g.struct w).isNone then (g, none)
  else if oneway = true ∨ v = w then
    (⟨adjPut g.struct v w ⟨g.ectr, v, w, element⟩, g.vctr, g.ectr + 1⟩,
      some ⟨g.ectr, v, w, element⟩)
  else
    (⟨adjPut (adjPut g.struct v w ⟨g.ectr, v, w, element⟩) w v
        ⟨g.ectr, v, w, element⟩, g.vctr, g.ectr + 1⟩,
      some ⟨g.ectr, v, w, element⟩)

/-! The adaptable priority queue.  The source class Element is a mutable
record (key, value, index) whose index field is rewritten on every swap;
eid models its object identity, so a handle held by a caller is the eid.
Python list subscripts may be negative (counting from the end) and the
parent position (index - 1) // 2 is Python floor division; both are
modelled exactly, because bubble_up genuinely evaluates queue[-1] when a
new minimum reaches the root. -/

/-- Heap entry of the source class Element. -/
structure Element where
  key : Int
  value : L
  index : Int
  eid : Nat
deriving DecidableEq

/-- Resolve a Python list subscript against a list of length n: an
in-range nonnegative index, a negative index counted from the end, or
IndexError. -/
def pyIdx (n : Nat) (i : Int) : Option Nat :=
  if 0 ≤ i ∧ i < (n : Int) then some i.toNat
  else if i < 0 ∧ 0 ≤ i + (n : Int) then some (i + (n : Int)).toNat
  else none

/-- Python q[i] read. -/
def pyGet (q : List Element) (i : Int) : Option Element :=
  (pyIdx q.length i).bind (fun j => q[j]?)

/-- Python q[i] = e write. -/
def pySetSlot (q : List Element) (i : Int) (e : Element) :
    Option (List Element) :=
  (pyIdx q.length i).map (fun j => q.set j e)

/-- Python q[i]._index = newIdx: rewrite the index field of the entry
stored at subscript i. -/
def modifyIndex (q : List Element) (i newIdx : Int) : Option (List Element) :=
  (pyGet q i).bind (fun e => pySetSlot q i { e with index := newIdx })

/-- Python q[i], q[j] = q[j], q[i]: both reads happen first, then the two
slot writes in order. -/
def pySwap (q : List Element) (i j : Int) : Option (List Element) := do
  let a ← pyGet q i
  let b ← pyGet q j
  let q1 ← pySetSlot q i b
  pySetSlot q1 j a

/-- APQ.min_leaf of the source: the single child when no right child
exists, otherwise the child with the smaller key (the right child on a
tie, since the comparison is strict). -/
def min_leaf (q : List Element) (i : Int) : Option Int :=
  if 2 * i + 2 > (q.length : Int) - 1 then some (2 * i + 1)
  else do
    let a ← pyGet q (2 * i + 1)
    let b ← pyGet q (2 * i + 2)
    if a.key < b.key then some (2 * i + 1) else some (2 * i + 2)

/-- Loop body of APQ.bubble_down, with a fuel bound on iterations (the
descent from a nonnegative start strictly increases the position, so
length + 2 fuel is never exhausted there). -/
def bubble_down_go : Nat → List Element → Int → Option (List Element)
  | 0, _, _ => none
  | fuel + 1, q, index =>
    if 2 * index + 1 < (q.length : Int) then do
      let ml ← min_leaf q index
      let a ← pyGet q index
      let c ← pyGet q ml
      if a.key < c.key then some q
      else do
        let q1 ← modifyIndex q index ml
        let q2 ← modifyIndex q1 ml index
        let q3 ← pySwap q2 index ml
        bubble_down_go fuel q3 ml
    else some q

/-- APQ.bubble_down of the source. -/
def bubble_down (q : List Element) (index : Int) : Option (List Element) :=
  bubble_down_go (q.length + 2) q index

/-- Loop body of APQ.bubble_up.  The loop keeps running at the root: with
index = 0 the parent subscript (0 - 1) // 2 is -1, which Python reads as
the last entry of the list. -/
def bubble_up_go : Nat → List Element → Int → Option (List Element)
  | 0, _, _ => none
  | fuel + 1, q, index => do
    let a ← pyGet q index
    let p ← pyGet q ((index - 1).fdiv 2)
    if a.key < p.key then do
      let parent := (index - 1).fdiv 2
      let q1 ← modifyIndex q index parent
      let q2 ← modifyIndex q1 parent index
      let q3 ← pySwap q2 index parent
      bubble_up_go fuel q3 parent
    else some q

/-- APQ.bubble_up of the source: guarded by index > 0 once, not per
iteration. -/
def bubble_up (q : List Element) (index : Int) : Option (List Element) :=
  if index > 0 then bubble_up_go (q.length + 2) q index else some q

/-- APQ of the source: the backing list plus the identity counter for the
Element objects it creates. -/
structure APQ where
  queue : List Element
  ctr : Nat
deriving DecidableEq

/-- The empty APQ, as built by the APQ constructor. -/
def APQ.empty : APQ := ⟨[], 0⟩

/-- APQ.add of the source: append at the end with index = position, then
bubble up.  Returns the created Element; its eid is the handle. -/
def APQ.add (apq : APQ) (key : Int) (item : L) : Option (APQ × Element) :=
  (bubble_up (apq.queue ++ [⟨key, item, (apq.queue.length : Int), apq.ctr⟩])
    (apq.queue.length : Int)).map
    (fun q2 => (⟨q2, apq.ctr + 1⟩,
      ⟨key, item, (apq.queue.length : Int), apq.ctr⟩))

/-- APQ.min of the source: peek the root, IndexError when empty. -/
def APQ.min (apq : APQ) : Option Element := pyGet apq.queue 0

/-- APQ.remove_min of the source: swap root with the last slot (updating
both index fields), pop the last slot, bubble down from the root. -/
def APQ.remove_min (apq : APQ) : Option (APQ × Element) := do
  let q1 ← modifyIndex apq.queue 0 ((apq.queue.length : Int) - 1)
  let q2 ← modifyIndex q1 ((apq.queue.length : Int) - 1) 0
  let q3 ← pySwap q2 0 (-1)
  let removed ← q3.getLast?
  let q5 ← bubble_down q3.dropLast 0
  some (⟨q5, apq.ctr⟩, removed)

/-- APQ.get_key of the source, read through the handle. -/
def APQ.get_key (apq : APQ) (handle : Nat) : Option Int :=
  (apq.queue.find? (fun e => e.eid = handle)).map (·.key)

/-- APQ.update_key of the source: lower the key and bubble up from the
index field of the handle, raise it and bubble down, equal key no-op.
The key write lands at the true position of the handled object; the
bubble start comes from its index field, exactly as in the source. -/
def APQ.update_key (apq : APQ) (handle : Nat) (newkey : Int) : Option APQ := do
  let p ← apq.queue.findIdx? (fun e => e.eid = handle)
  let element ← apq.queue[p]?
  if element.key > newkey then
    (bubble_up (apq.queue.set p { element with key := newkey })
      element.index).map (fun q2 => ⟨q2, apq.ctr⟩)
  else if element.key < newkey then
    (bubble_down (apq.queue.set p { element with key := newkey })
      element.index).map (fun q2 => ⟨q2, apq.ctr⟩)
  else
    some apq

/-- Current index field of the handled Element object while it is still in
the queue; fallback is its last written value otherwise. -/
def fieldIndex (q : List Element) (fallback : Int) (handle : Nat) : Int :=
  match q.find? (fun e => e.eid = handle) with
  | some e => e.index
  | none => fallback

/-- APQ.remove of the source, modelled statement by statement.  The first
statement rewrites the index field of the entry at subscript
element._index; when that entry is the handled object itself (the normal
case), the subsequent reads of element._index see the new value
len - 1, so the swap degenerates and the pop takes the last entry. -/
def APQ.remove (apq : APQ) (handle : Nat) : Option (APQ × Element) := do
  let element ← apq.queue.find? (fun e => e.eid = handle)
  let n := apq.queue.length
  let q1 ← modifyIndex apq.queue element.index ((n : Int) - 1)
  let i1 := fieldIndex q1 element.index handle
  let q2 ← modifyIndex q1 ((n : Int) - 1) i1
  let i2 := fieldIndex q2 i1 handle
  let q3 ← pySwap q2 i2 (-1)
  let removed ← q3.getLast?
  let q4 := q3.dropLast
  let i3 := if removed.eid = handle then removed.index
            else fieldIndex q4 i2 handle
  let q5 ← bubble_down q4 i3
  let i4 := if removed.eid = handle then removed.index
            else fieldIndex q5 i3 handle
  let q6 ← bubble_up q5 i4
  some (⟨q6, apq.ctr⟩, removed)

/-! The dijkstra function.  It is written against whichever graph object
it is handed, and the only method dispatched dynamically is
get_vertex_by_label: the Graph version returns the vertex or None, the
RouteMap override raises KeyError on a miss.  The loop state carries the
open APQ, the locs dict (label to handle; the source seeds the source
label with the int 0 instead of a handle, modelled as none), the preds
dict and the closed table. -/

/-- Result table of dijkstra: label to (distance, predecessor label). -/
abbrev Closed := List (L × (Int × Option L))

/-- Loop state of dijkstra. -/
structure DState where
  apq : APQ
  locs : List (L × Option Nat)
  preds : List (L × Option L)
  closed : Closed
deriving DecidableEq

/-- Edge-relaxation body of the inner for loop of dijkstra, for one edge
incident on the popped vertex v (label vert, popped key minkey). -/
def relax (closed : Closed) (minkey : Int) (vert : L) (v : Vertex)
    (st : APQ × List (L × Option Nat) × List (L × Option L)) (edge : Edge) :
    Except Err (APQ × List (L × Option Nat) × List (L × Option L)) :=
  match edge.opposite v with
  | none => .error .attrError
  | some opp =>
    if (dget closed opp.elem).isSome then .ok st
    else
      match dget st.2.1 opp.elem with
      | none =>
        match st.1.add (minkey + edge.elem) opp.elem with
        | none => .error .indexError
        | some (apq2, added) =>
          .ok (apq2, dput st.2.1 opp.elem (some added.eid),
            dput st.2.2 opp.elem (some vert))
      | some handleOpt =>
        match handleOpt with
        | none => .error .attrError
        | some handle =>
          match st.1.queue.find? (fun e => e.eid = handle) with
          | none => .error .attrError
          | some element =>
            if element.key > minkey + edge.elem then
              match st.1.update_key handle (minkey + edge.elem) with
              | none => .error .indexError
              | some apq2 =>
                .ok (apq2, st.2.1, dput st.2.2 opp.elem (some vert))
            else .ok st

/-- One iteration of the while loop of dijkstra: pop the minimum, finalize
its label, and relax every incident edge of the matching vertex. -/
def dstep (look : L → Except Err (Option Vertex)) (adj : Adj)
    (st : DState) : Except Err DState :=
  match st.apq.remove_min with
  | none => .error .indexError
  | some (apq1, mn) =>
    match dpop st.locs mn.value with
    | none => .error .keyError
    | some (_, locs1) =>
      match dpop st.preds mn.value with
      | none => .error .keyError
      | some (pred, preds1) =>
        match look mn.value with
        | .error er => .error er
        | .ok vo =>
          match vo with
          | none =>
            .ok ⟨apq1, locs1, preds1, dput st.closed mn.value (mn.key, pred)⟩
          | some v =>
            match dget adj v with
            | none =>
              .ok ⟨apq1, locs1, preds1,
                dput st.closed mn.value (mn.key, pred)⟩
            | some m =>
              match (m.map (·.2)).foldlM
                  (relax (dput st.closed mn.value (mn.key, pred)) mn.key
                    mn.value v)
                  (apq1, locs1, preds1) with
              | .error er => .error er
              | .ok (apq2, locs2, preds2) =>
                .ok ⟨apq2, locs2, preds2,
                  dput st.closed mn.value (mn.key, pred)⟩

/-- The while loop of dijkstra, with fuel.  Each iteration finalizes a
fresh label, so num_vertices + 1 fuel is never exhausted on a run the
source could complete. -/
def dloop (look : L → Except Err (Option Vertex)) (adj : Adj) :
    Nat → DState → Except Err Closed
  | 0, st =>
    if st.apq.queue.length = 0 then .ok st.closed else .error .fuelOut
  | fuel + 1, st =>
    if st.apq.queue.length = 0 then .ok st.closed
    else
      match dstep look adj st with
      | .error er => .error er
      | .ok st2 => dloop look adj fuel st2

/-- Initial state of dijkstra: preds = {source: None}, the source pushed
with key 0, and locs[source] = 0 (the int, not a handle). -/
def dinit (source : L) : Option DState :=
  (APQ.empty.add 0 source).map
    (fun r => ⟨r.1, dput [] source none, dput [] source none, []⟩)

/-- dijkstra of the source, parametric in the label lookup (the one
dynamically dispatched method). -/
def dijkstraCore (look : L → Except Err (Option Vertex)) (adj : Adj)
    (source : L) (fuel : Nat) : Except Err Closed :=
  match dinit source with
  | none => .error .indexError
  | some st => dloop look adj fuel st

/-- dijkstra run on a plain Graph. -/
def dijkstraG (g : Graph) (source : L) : Except Err Closed :=
  dijkstraCore (fun x => .ok (g.get_vertex_by_label x)) g.struct source
    (g.num_vertices + 1)

/-! RouteMap: Graph plus coordinates and an O(1) label index, and the sp
path reporter. -/

/-- RouteMap of the source.  Coordinates are inert payload; the source
stores floats, modelled as optional Ints (None before assignment). -/
structure RouteMap where
  g : Graph
  vertexcoords : List (Vertex × (Option Int × Option Int))
  findvertex : List (L × Vertex)
deriving DecidableEq

/-- The empty RouteMap, as built by the RouteMap constructor. -/
def RouteMap.empty : RouteMap := ⟨Graph.empty, [], []⟩

/-- RouteMap.add_vertex of the source: record label index and coordinates
alongside the structure entry. -/
def RouteMap.add_vertex (rm : RouteMap) (element : L)
    (coord1 coord2 : Option Int) : RouteMap × Vertex :=
  let v : Vertex := ⟨rm.g.vctr, element⟩
  (⟨⟨rm.g.struct ++ [(v, [])], rm.g.vctr + 1, rm.g.ectr⟩,
    dput rm.vertexcoords v (coord1, coord2),
    dput rm.findvertex element v⟩, v)

/-- RouteMap.add_edge: inherited from Graph, acting on the g component. -/
def RouteMap.add_edge (rm : RouteMap) (v w : Vertex) (element : Int)
    (oneway : Bool) : RouteMap × Option Edge :=
  let r := rm.g.add_edge v w element oneway
  (⟨r.1, rm.vertexcoords, rm.findvertex⟩, r.2)

/-- RouteMap.get_vertex_by_label of the source: the override raises
KeyError on a miss instead of returning None. -/
def RouteMap.get_vertex_by_label (rm : RouteMap) (element : L) :
    Except Err Vertex :=
  match dget rm.findvertex element with
  | some v => .ok v
  | none => .error .keyError

/-- dijkstra run on a RouteMap: get_vertex_by_label dispatches to the
override. -/
def dijkstraRM (rm : RouteMap) (source : L) : Except Err Closed :=
  dijkstraCore
    (fun x => (rm.get_vertex_by_label x).map some)
    rm.g.struct source (rm.g.num_vertices + 1)

/-- One emitted hop record of sp: latitude, longitude, label, cumulative
cost. -/
abbrev SpRec := (Option Int × Option Int) × L × Int

/-- The while loop of RouteMap.sp.  The loop variable w is reassigned to
closed[w][1], which is None for the source, hence an Option; Python then
evaluates None != v as true and the dict lookups raise KeyError. -/
def spLoop (rm : RouteMap) (closed : Closed) (v : L) :
    Nat → Option L → Except Err (List SpRec)
  | 0, _ => .error .fuelOut
  | fuel + 1, wOpt =>
    if wOpt = some v then .ok []
    else
      match wOpt with
      | none => .error .keyError
      | some w =>
        match rm.get_vertex_by_label w with
        | .error er => .error er
        | .ok vtx =>
          match dget rm.vertexcoords vtx with
          | none => .error .keyError
          | some co =>
            match dget closed w with
            | none => .error .keyError
            | some entry =>
              match spLoop rm closed v fuel entry.2 with
              | .error er => .error er
              | .ok rest => .ok ((co, w, entry.1) :: rest)

/-- RouteMap.sp of the source: run dijkstra from v, then walk the
predecessor chain backwards from w, emitting one record per hop. -/
def RouteMap.sp (rm : RouteMap) (v w : L) : Except Err (List SpRec) :=
  match dijkstraRM rm v with
  | .error er => .error er
  | .ok closed => spLoop rm closed v (closed.length + 1) (some w)

/-! Graph-building sequences, used to state the claims that quantify over
graphs built by add_vertex and add_edge calls. -/

/-- One build call: add_vertex with a label, or add_edge on two vertex
objects with an element and the oneway flag. -/
inductive BInstr where
  | addV : L → BInstr
  | addE : Vertex → Vertex → Int → Bool → BInstr
deriving DecidableEq

/-- Execute one build call, discarding the returned object as the build
scripts of the source do. -/
def bstep (g : Graph) : BInstr → Graph
  | .addV x => (g.add_vertex x).1
  | .addE v w x ow => (g.add_edge v w x ow).1

/-- Execute a build script. -/
def build (g : Graph) (is : List BInstr) : Graph := is.foldl bstep g

/-- Side conditions of one build call: an add_edge call must find both
endpoints and must not re-add an ordered pair already stored (for a
two-way insertion, neither direction). -/
def instrOk (g : Graph) : BInstr → Bool
  | .addV _ => true
  | .addE v w _ ow =>
    match dget g.struct v, dget g.struct w with
    | some mv, some mw =>
      (dget mv w).isNone &&
      (ow || decide (v = w) || (dget mw v).isNone)
    | _, _ => false

/-- Side conditions of a whole build script, checked state by state. -/
def buildOk : Graph → List BInstr → Bool
  | _, [] => true
  | g, i :: is => instrOk g i && buildOk (bstep g i) is

/-- Count of two-way edge insertions in a script. -/
def twoWayCount (is : List BInstr) : Nat :=
  (is.filter (fun i => match i with
    | .addE _ _ _ false => true
    | _ => false)).length

/-- Count of one-way edge insertions in a script. -/
def oneWayCount (is : List BInstr) : Nat :=
  (is.filter (fun i => match i with
    | .addE _ _ _ true => true
    | _ => false)).length

/-- Script with no self-loop edge insertion. -/
def noSelfLoop : List BInstr → Bool
  | [] => true
  | .addE v w _ _ :: t => decide (v ≠ w) && noSelfLoop t
  | .addV _ :: t => noSelfLoop t

/-- Number of adjacency entries one build call inserts when it succeeds on
distinct vertices: a two-way edge is stored in both endpoint maps, a
one-way edge in one. -/
def instrContribution : BInstr → Nat
  | .addV _ => 0
  | .addE _ _ _ ow => if ow then 1 else 2

/-- Total adjacency size of a graph (what num_edges halves). -/
def adjTotal (g : Graph) : Nat := (g.struct.map (fun p => p.2.length)).sum

/-- Well-formedness every graph reachable by the source operations has:
outer keys carry identities below the vertex counter and are distinct,
and every stored edge carries an identity below the edge counter. -/
def GraphWF (g : Graph) : Prop :=
  (∀ p ∈ g.struct, p.1.vid < g.vctr) ∧
  (dkeys g.struct).Nodup ∧
  (∀ p ∈ g.struct, ∀ q ∈ p.2, q.2.eid < g.ectr)

instance (g : Graph) : Decidable (GraphWF g) := by
  unfold GraphWF
  infer_instance

/-! Auxiliary predicates and functions the claims are stated with. -/

/-- Heap invariant of the specification: every non-root entry has
parent.key at most its key, and every index field equals the true array
position. -/
def heapInv (q : List Element) : Bool :=
  ((List.range q.length).all (fun j =>
    if j = 0 then true
    else
      match q[(j - 1) / 2]?, q[j]? with
      | some p, some c => decide (p.key ≤ c.key)
      | _, _ => false)) &&
  ((List.range q.length).all (fun j =>
    match q[j]? with
    | some e => decide (e.index = (j : Int))
    | none => false))

/-- Cost of walking a label chain through the graph, edge by edge via
get_vertex_by_label and get_edge; none if some hop has no edge. -/
def chainCost (g : Graph) : List L → Option Int
  | [] => some 0
  | [_] => some 0
  | x :: y :: rest => do
    let vx ← g.get_vertex_by_label x
    let vy ← g.get_vertex_by_label y
    let e ← g.get_edge vx vy
    let c ← chainCost g (y :: rest)
    some (e.elem + c)

/-- Consistency of the label index of a RouteMap with its vertex set:
every findvertex binding names the element of some vertex, and every
vertex element has a findvertex binding.  RouteMap.add_vertex maintains
this. -/
def RMConsistent (rm : RouteMap) : Prop :=
  (∀ p ∈ rm.findvertex, ∃ v ∈ dkeys rm.g.struct, v.elem = p.1) ∧
  (∀ v ∈ dkeys rm.g.struct, ∃ p ∈ rm.findvertex, p.1 = v.elem)

instance (rm : RouteMap) : Decidable (RMConsistent rm) := by
  unfold RMConsistent
  infer_instance

/-- One traversal step as dijkstra takes it: from label x, resolve the
vertex through the supplied lookup, read its adjacency list, and follow
one incident edge to the element of its opposite endpoint. -/
def stepRel (look : L → Except Err (Option Vertex)) (adj : Adj)
    (x y : L) : Prop :=
  ∃ v m q o,
    look x = .ok (some v) ∧ dget adj v = some m ∧ q ∈ m ∧
    q.2.opposite v = some o ∧ o.elem = y

/-- Reachability along traversal steps. -/
def ReachesVia (look : L → Except Err (Option Vertex)) (adj : Adj)
    (src y : L) : Prop :=
  Relation.ReflTransGen (stepRel look adj) src y

/-! Concrete inputs the individual claims are evaluated on. -/

/-- Build script of the three-vertex example of the specification: labels
A = 0, B = 1, C = 2 with two-way edges A-B cost 1, B-C cost 2, A-C cost
4. -/
def sABC : List BInstr :=
  [.addV 0, .addV 1, .addV 2,
   .addE ⟨0, 0⟩ ⟨1, 1⟩ 1 false,
   .addE ⟨1, 1⟩ ⟨2, 2⟩ 2 false,
   .addE ⟨0, 0⟩ ⟨2, 2⟩ 4 false]

/-- The three-vertex example graph. -/
def gABC : Graph := build Graph.empty sABC

/-- Graph on which dijkstra returns a non-shortest distance: labels
S = 0, A = 1, B = 2 with two-way edges S-A cost 5, S-B cost 1, B-A cost
1.  The shortest path from S to A is S, B, A with cost 2. -/
def gBug : Graph := build Graph.empty
  [.addV 0, .addV 1, .addV 2,
   .addE ⟨0, 0⟩ ⟨1, 1⟩ 5 false,
   .addE ⟨0, 0⟩ ⟨2, 2⟩ 1 false,
   .addE ⟨2, 2⟩ ⟨1, 1⟩ 1 false]

/-- Build script with exactly one one-way edge between two vertices and
no two-way edge, so k = 0 and m = 1. -/
def sOne : List BInstr := [.addV 0, .addV 1, .addE ⟨0, 0⟩ ⟨1, 1⟩ 7 true]

/-- Graph with exactly one one-way edge between two vertices. -/
def gOne : Graph := build Graph.empty sOne

/-- Graph in which a two-way edge between two vertices is later
overwritten in one direction by a one-way re-add of the same pair. -/
def gRepl : Graph := build Graph.empty
  [.addV 0, .addV 1,
   .addE ⟨0, 0⟩ ⟨1, 1⟩ 5 false,
   .addE ⟨0, 0⟩ ⟨1, 1⟩ 7 true]

/-- RouteMap with two vertices and no edge: label 1 is unreachable from
label 0. -/
def rmTwo : RouteMap :=
  (((RouteMap.empty.add_vertex 0 (some 10) (some 20)).1).add_vertex 1
    (some 30) (some 40)).1

/-- APQ run: add key 5, then add key 1.  The second add bubbles the new
minimum to the root, where the loop of bubble_up compares it against the
subscript (0 - 1) // 2 = -1, the last slot, and swaps it back out. -/
def apqTwoAdds : Option APQ := do
  let r1 ← APQ.empty.add 5 10
  let r2 ← r1.1.add 1 11
  some r2.1

/-- APQ run: add keys 0 and 1, then remove the handle of the first. -/
def apqRemoveRun : Option (APQ × Element) := do
  let r1 ← APQ.empty.add 0 10
  let r2 ← r1.1.add 1 11
  r2.1.remove r1.2.eid

/-- Two-entry queue with equal keys and correct index fields, as reached
by bubbling during remove_min of a larger heap. -/
def qEq : List Element := [⟨1, 5, 0, 0⟩, ⟨1, 7, 1, 1⟩]

/-! Dictionary lemmas. -/

section DictLemmas

variable {A B : Type} [DecidableEq A]

theorem dget_dput_self (m : List (A × B)) (k : A) (v : B) :
    dget (dput m k v) k = some v := by
  induction m with
  | nil => simp [dget, dput]
  | cons p t ih =>
    by_cases h : p.1 = k
    · simp [dget, dput, h]
    · simp [dget, dput, h, ih]

theorem dget_dput_of_ne {m : List (A × B)} {k k2 : A} {v : B} (h : k ≠ k2) :
    dget (dput m k v) k2 = dget m k2 := by
  induction m with
  | nil => simp [dget, dput, h]
  | cons p t ih =>
    by_cases hp : p.1 = k
    · simp [dget, dput, hp, h]
    · by_cases hp2 : p.1 = k2
      · simp [dget, dput, hp, hp2, Ne.symm h]
      · simp [dget, dput, hp, hp2, ih]

theorem dget_eq_none_iff (m : List (A × B)) (k : A) :
    dget m k = none ↔ k ∉ dkeys m := by
  induction m with
  | nil => simp [dget, dkeys]
  | cons p t ih =>
    by_cases h : p.1 = k
    · simp [dget, dkeys, h]
    · simp only [dget, dkeys, List.map_cons, List.mem_cons, h, if_false]
      constructor
      · intro hn hor
        rcases hor with hor | hor
        · exact h hor.symm
        · exact (ih.mp hn) (by simpa [dkeys] using hor)
      · intro hn
        exact ih.mpr (fun hm => hn (Or.inr (by simpa [dkeys] using hm)))

theorem dkeys_dput (m : List (A × B)) (k : A) (v : B) :
    ∀ a, a ∈ dkeys (dput m k v) → a = k ∨ a ∈ dkeys m := by
  induction m with
  | nil => simp [dput, dkeys]
  | cons p t ih =>
    intro a ha
    by_cases h : p.1 = k
    · simp [dput, dkeys, h] at ha
      rcases ha with ha | ha
      · exact Or.inl ha
      · exact Or.inr (by simp [dkeys, ha])
    · simp [dput, dkeys, h] at ha
      rcases ha with ha | ha
      · exact Or.inr (by simp [dkeys, ha])
      · rcases ih a (by simpa [dkeys] using ha) with h2 | h2
        · exact Or.inl h2
        · exact Or.inr (by simp [dkeys]; exact Or.inr (by simpa [dkeys] using h2))

theorem length_dput_of_none (m : List (A × B)) (k : A) (v : B)
    (h : dget m k = none) : (dput m k v).length = m.length + 1 := by
  induction m with
  | nil => simp [dput]
  | cons p t ih =>
    by_cases hp : p.1 = k
    · simp [dget, hp] at h
    · simp [dget, hp] at h
      simp [dput, hp, ih h]

theorem length_dput_of_some (m : List (A × B)) (k : A) (v w : B)
    (h : dget m k = some w) : (dput m k v).length = m.length := by
  induction m with
  | nil => simp [dget] at h
  | cons p t ih =>
    by_cases hp : p.1 = k
    · simp [dput, hp]
    · simp [dget, hp] at h
      simp [dput, hp, ih h]

theorem dget_append_of_some (m m2 : List (A × B)) (k : A) (v : B)
    (h : dget m k = some v) : dget (m ++ m2) k = some v := by
  induction m with
  | nil => simp [dget] at h
  | cons p t ih =>
    by_cases hp : p.1 = k
    · simpa [dget, hp] using h
    · simp [dget, hp] at h ⊢
      exact ih h

theorem mem_of_dget_eq_some {A B : Type} [DecidableEq A]
    (m : List (A × B)) (k : A) (v : B) (h : dget m k = some v) :
    (k, v) ∈ m := by
  induction m with
  | nil => simp [dget] at h
  | cons p t ih =>
    obtain ⟨a, b⟩ := p
    by_cases hp : a = k
    · simp [dget, hp] at h
      subst hp
      subst h
      exact List.mem_cons_self _ _
    · simp [dget, hp] at h
      exact List.mem_cons_of_mem _ (ih h)

end DictLemmas

/-! Lemmas about the adjacency update of add_edge. -/

theorem dget_adjPut (adj : Adj) (v w : Vertex) (e : Edge) (a : Vertex) :
    dget (adjPut adj v w e) a =
      if a = v then (dget adj v).map (fun m => dput m w e)
      else dget adj a := by
  induction adj with
  | nil => by_cases h : a = v <;> simp [adjPut, dget, h]
  | cons p t ih =>
    obtain ⟨u, m⟩ := p
    by_cases huv : u = v
    · by_cases hua : u = a
      · have hav : a = v := hua ▸ huv
        subst huv
        subst hua
        simp [adjPut, dget]
      · have hav : a ≠ v := fun h => hua ((h ▸ huv : u = a))
        subst huv
        simp only [adjPut, List.map_cons, if_true, dget, hua, if_false,
          hav, reduceIte]
        simpa [adjPut, hav] using ih
    · by_cases hua : u = a
      · have hav : a ≠ v := fun h => huv (hua.symm ▸ h)
        subst hua
        simp [adjPut, dget, huv, hav]
      · simp only [adjPut, List.map_cons, huv, if_false, dget, hua]
        simpa [adjPut] using ih

theorem get_edge_def (g : Graph) (v w : Vertex) :
    g.get_edge v w = (dget g.struct v).bind (fun m => dget m w) := rfl

/-! Lemmas about the Python subscript primitives and the heap loops. -/

theorem pyIdx_nonneg {n : Nat} {i : Int} (h0 : 0 ≤ i) (h : i < (n : Int)) :
    pyIdx n i = some i.toNat := by
  unfold pyIdx
  simp [h0, h]

theorem pyIdx_nonneg_elim {n : Nat} {i : Int} {s : Nat} (h0 : 0 ≤ i)
    (h : pyIdx n i = some s) : s = i.toNat ∧ i < (n : Int) := by
  unfold pyIdx at h
  by_cases hlt : i < (n : Int)
  · simp [h0, hlt] at h
    exact ⟨h.symm, hlt⟩
  · simp [hlt] at h
    exact absurd h.1.1 (not_lt.mpr h0)

theorem pyGet_nonneg_elim {q : List Element} {e : Element} {i : Int}
    (h0 : 0 ≤ i) (h : pyGet q i = some e) :
    q[i.toNat]? = some e ∧ i < (q.length : Int) := by
  unfold pyGet at h
  cases hidx : pyIdx q.length i with
  | none => rw [hidx] at h; simp at h
  | some s =>
    rw [hidx] at h
    simp only [Option.some_bind] at h
    obtain ⟨hs, hlt⟩ := pyIdx_nonneg_elim h0 hidx
    exact ⟨hs ▸ h, hlt⟩

theorem modifyIndex_elim {q q2 : List Element} {t n : Int}
    (h : modifyIndex q t n = some q2) :
    ∃ st e, pyIdx q.length t = some st ∧ q[st]? = some e ∧
      q2 = q.set st { e with index := n } := by
  unfold modifyIndex pyGet pySetSlot at h
  cases hidx : pyIdx q.length t with
  | none => rw [hidx] at h; simp at h
  | some st =>
    rw [hidx] at h
    simp only [Option.bind_eq_bind, Option.some_bind] at h
    cases hget : q[st]? with
    | none => rw [hget] at h; simp at h
    | some e =>
      rw [hget] at h
      simp at h
      exact ⟨st, e, rfl, hget, h.symm⟩

theorem pySwap_elim {q q2 : List Element} {i j : Int}
    (h : pySwap q i j = some q2) :
    ∃ si sj a b, pyIdx q.length i = some si ∧ pyIdx q.length j = some sj ∧
      q[si]? = some a ∧ q[sj]? = some b ∧
      q2 = (q.set si b).set sj a := by
  unfold pySwap pyGet pySetSlot at h
  cases hi : pyIdx q.length i with
  | none => rw [hi] at h; simp at h
  | some si =>
    rw [hi] at h
    simp only [Option.bind_eq_bind, Option.some_bind] at h
    cases ha : q[si]? with
    | none => rw [ha] at h; simp at h
    | some a =>
      rw [ha] at h
      simp only [Option.bind_eq_bind, Option.some_bind] at h
      cases hj : pyIdx q.length j with
      | none => rw [hj] at h; simp at h
      | some sj =>
        rw [hj] at h
        simp only [Option.bind_eq_bind, Option.some_bind] at h
        cases hb : q[sj]? with
        | none => rw [hb] at h; simp at h
        | some b =>
          rw [hb] at h
          simp only [Option.bind_eq_bind, Option.some_bind,
            Option.map_some'] at h
          rw [(by rw [List.length_set] :
            pyIdx (q.set si b).length j = pyIdx q.length j), hj] at h
          simp only [Option.map_some'] at h
          exact ⟨si, sj, a, b, rfl, rfl, ha, hb,
            (Option.some_inj.mp h).symm⟩

theorem min_leaf_cases {q : List Element} {j ml : Int}
    (h : min_leaf q j = some ml) : ml = 2 * j + 1 ∨ ml = 2 * j + 2 := by
  unfold min_leaf at h
  by_cases hc : 2 * j + 2 > (q.length : Int) - 1
  · simp [hc] at h
    exact Or.inl h.symm
  · simp only [hc, if_false] at h
    cases ha : pyGet q (2 * j + 1) with
    | none => rw [ha] at h; simp at h
    | some a =>
      rw [ha] at h
      simp only [Option.bind_eq_bind, Option.some_bind] at h
      cases hb : pyGet q (2 * j + 2) with
      | none => rw [hb] at h; simp at h
      | some b =>
        rw [hb] at h
        simp only [Option.bind_eq_bind, Option.some_bind] at h
        by_cases hk : a.key < b.key
        · simp [hk] at h
          exact Or.inl h.symm
        · simp [hk] at h
          exact Or.inr h.symm

theorem bubble_down_go_lower {s : Nat} :
    ∀ (f : Nat) (q : List Element) (j : Int) (q2 : List Element),
      bubble_down_go f q j = some q2 → (s : Int) < j → q2[s]? = q[s]? := by
  intro f
  induction f with
  | zero => intro q j q2 h _; simp [bubble_down_go] at h
  | succ f ih =>
    intro q j q2 h hsj
    unfold bubble_down_go at h
    by_cases hc : 2 * j + 1 < (q.length : Int)
    · simp only [hc, if_true] at h
      cases hml : min_leaf q j with
      | none => rw [hml] at h; simp at h
      | some ml =>
        rw [hml] at h
        simp only [Option.bind_eq_bind, Option.some_bind] at h
        cases ha : pyGet q j with
        | none => rw [ha] at h; simp at h
        | some a =>
          rw [ha] at h
          simp only [Option.bind_eq_bind, Option.some_bind] at h
          cases hcg : pyGet q ml with
          | none => rw [hcg] at h; simp at h
          | some c =>
            rw [hcg] at h
            simp only [Option.bind_eq_bind, Option.some_bind] at h
            by_cases hk : a.key < c.key
            · simp [hk] at h
              rw [h]
            · simp only [hk, if_false] at h
              cases h1 : modifyIndex q j ml with
              | none => rw [h1] at h; simp at h
              | some q1 =>
                rw [h1] at h
                simp only [Option.bind_eq_bind, Option.some_bind] at h
                cases h2 : modifyIndex q1 ml j with
                | none => rw [h2] at h; simp at h
                | some qb =>
                  rw [h2] at h
                  simp only [Option.bind_eq_bind, Option.some_bind] at h
                  cases h3 : pySwap qb j ml with
                  | none => rw [h3] at h; simp at h
                  | some q3 =>
                    rw [h3] at h
                    simp only [Option.bind_eq_bind, Option.some_bind] at h
                    have hj0 : (0 : Int) ≤ j := le_trans (by omega) (le_of_lt hsj)
                    have hml2 : ml = 2 * j + 1 ∨ ml = 2 * j + 2 :=
                      min_leaf_cases hml
                    have hmlgt : (s : Int) < ml := by omega
                    have hres := ih q3 ml q2 h hmlgt
                    rw [hres]
                    obtain ⟨st1, e1, hst1, _, hq1⟩ := modifyIndex_elim h1
                    obtain ⟨st2, e2, hst2, _, hq2⟩ := modifyIndex_elim h2
                    obtain ⟨si, sj, ea, eb, hsi, hsj2, _, _, hq3⟩ :=
                      pySwap_elim h3
                    have hq1len : q1.length = q.length := by
                      rw [hq1, List.length_set]
                    have hqblen : qb.length = q.length := by
                      rw [hq2, List.length_set, hq1len]
                    have hst1v : st1 = j.toNat := (pyIdx_nonneg_elim hj0 hst1).1
                    have hml0 : (0 : Int) ≤ ml := by omega
                    have hst2v : st2 = ml.toNat := by
                      have := pyIdx_nonneg_elim hml0 (hq1len ▸ hst2)
                      exact this.1
                    have hsiv : si = j.toNat := by
                      have := pyIdx_nonneg_elim hj0 (hqblen ▸ hsi)
                      exact this.1
                    have hsjv : sj = ml.toNat := by
                      have := pyIdx_nonneg_elim hml0 (hqblen ▸ hsj2)
                      exact this.1
                    have hsne1 : s ≠ j.toNat := by omega
                    have hsne2 : s ≠ ml.toNat := by omega
                    rw [hq3, hq2, hq1, hsiv, hsjv, hst1v, hst2v,
                      List.getElem?_set_ne (Ne.symm hsne2),
                      List.getElem?_set_ne (Ne.symm hsne1),
                      List.getElem?_set_ne (Ne.symm hsne2),
                      List.getElem?_set_ne (Ne.symm hsne1)]
    · simp only [hc, if_false] at h
      rw [← Option.some_inj.mp h]

/-! Claim theorems on concrete inputs. -/

/-- C1: the claim states that for non-negative costs and a present source,
dijkstra finalizes every reachable label with its shortest distance and a
valid shortest-path predecessor.  On gBug (all costs positive, source 0
present) the run terminates but finalizes label 1 at distance 5 with
predecessor 0, although the walk 0, 2, 1 costs 2: the bubble_up root bug
lets the key-5 entry back into the root, so remove_min pops it before the
key-1 entry. -/
theorem C1_dijkstra_nonshortest_eval :
    dijkstraG gBug 0 =
      .ok [(0, (0, none)), (1, (5, some 0)), (2, (1, some 0))] ∧
    chainCost gBug [0, 2, 1] = some 2 ∧ (2 : Int) < 5 :=
  ⟨rfl, rfl, by decide⟩

/-- C2: the claim states that after each operation of a legal APQ
sequence every non-root entry has parent.key at least... at most its key
and every index field equals the array position.  After the sequence
add(5), add(1) the queue is [key 5 at slot 0, key 1 at slot 1 with index
field -1]: both halves of the invariant fail, because bubble_up swaps the
new minimum back out of the root through the Python subscript -1. -/
theorem C2_heap_invariant_violated_eval :
    apqTwoAdds = some ⟨[⟨5, 10, 0, 0⟩, ⟨1, 11, -1, 1⟩], 2⟩ ∧
    heapInv [⟨5, 10, 0, 0⟩, ⟨1, 11, -1, 1⟩] = false :=
  ⟨rfl, rfl⟩

/-- C3: the claim states that remove(handle) on a handle in the queue
swaps the entry to the last slot, pops it, rebubbles, and returns exactly
the handled entry.  On a two-entry queue, remove of the root handle
fails: the source overwrites element._index with the last position before
reading it, so the swap degenerates, the pop takes the wrong entry, and
bubble_up then reads one slot past the shrunk list (IndexError, modelled
as none). -/
theorem C3_remove_wrong_entry_and_crash_eval : apqRemoveRun = none := rfl

/-- C4: dijkstra from label A = 0 on the graph A-B:1, B-C:2, A-C:4
returns the closed table {A: (0, None), B: (1, A), C: (3, B)}; in
particular C has distance 3 and predecessor B. -/
theorem C4_dijkstra_example :
    dijkstraG gABC 0 =
      .ok [(0, (0, none)), (1, (1, some 0)), (2, (3, some 1))] := rfl

/-- C5 counterexample: the claim states that sp on a destination that was
never finalized fails with an Unreachable error via a bounded check.  On
the RouteMap rmTwo (two vertices, no edge) the destination 1 is absent
from the closed table of the run from 0, and sp fails with the untyped
KeyError of the dict lookup closed[w], not with the typed Unreachable
error. -/
theorem C5_sp_untyped_failure_cex :
    dijkstraRM rmTwo 0 = .ok [(0, (0, none))] ∧
    RouteMap.sp rmTwo 0 1 = .error .keyError ∧
    Err.keyError ≠ Err.unreachable :=
  ⟨rfl, rfl, by decide⟩

/-- C6 counterexample: the claim states num_edges returns k + m for k
two-way and m one-way edges.  The script sOne builds k = 0 and m = 1
under all side conditions, yet num_edges returns 0, not 1: the single
adjacency entry of a one-way edge is floor-halved away. -/
theorem C6_oneway_undercount_cex :
    buildOk Graph.empty sOne = true ∧ noSelfLoop sOne = true ∧
    twoWayCount sOne + oneWayCount sOne = 1 ∧
    Graph.num_edges gOne = 0 ∧ (0 : Nat) ≠ 1 :=
  ⟨rfl, rfl, rfl, rfl, by decide⟩

/-- C8 counterexample: the claim states that after every sequence of
add_vertex and add_edge calls a two-way edge is the same Edge instance in
both endpoint maps and get_edge returns it identically in both
directions.  In gRepl the two-way add created edge eid 0, but a later
one-way re-add of the same ordered pair replaced only the (v, w)
direction: get_edge now returns different Edge instances in the two
directions, and the two-way edge eid 0 survives in only one map. -/
theorem C8_replaced_twoway_cex :
    Graph.get_edge gRepl ⟨0, 0⟩ ⟨1, 1⟩ = some ⟨1, ⟨0, 0⟩, ⟨1, 1⟩, 7⟩ ∧
    Graph.get_edge gRepl ⟨1, 1⟩ ⟨0, 0⟩ = some ⟨0, ⟨0, 0⟩, ⟨1, 1⟩, 5⟩ ∧
    Graph.get_edge gRepl ⟨0, 0⟩ ⟨1, 1⟩ ≠ Graph.get_edge gRepl ⟨1, 1⟩ ⟨0, 0⟩ :=
  ⟨rfl, rfl, by decide⟩

/-- C9 counterexample: the claim states the bubble-down descent stops as
soon as parent.key is less than or equal to the chosen child key, so no
swap on equal keys.  On the two-entry queue qEq with equal keys 1,
bubble_down from the root does swap the entries (the stop test of the
source is strict). -/
theorem C9_equal_keys_swap_cex :
    bubble_down qEq 0 = some [⟨1, 7, 0, 1⟩, ⟨1, 5, 1, 0⟩] ∧
    ([⟨1, 7, 0, 1⟩, ⟨1, 5, 1, 0⟩] : List Element) ≠ qEq :=
  ⟨rfl, by decide⟩

/-- C10: on an element no vertex of the container carries,
Graph.get_vertex_by_label returns None, while the RouteMap override (on a
RouteMap whose label index is consistent with its vertex set, as
RouteMap.add_vertex maintains) fails with KeyError. -/
theorem C10_lookup_miss (g : Graph) (rm : RouteMap) (x : L)
    (hg : ∀ v ∈ dkeys g.struct, v.elem ≠ x)
    (hc : RMConsistent rm)
    (hrm : ∀ v ∈ dkeys rm.g.struct, v.elem ≠ x) :
    g.get_vertex_by_label x = none ∧
    rm.get_vertex_by_label x = .error .keyError := by
  constructor
  · have hfind : g.struct.find? (fun p => p.1.elem = x) = none := by
      rw [List.find?_eq_none]
      intro p hp
      simp only [decide_eq_true_eq]
      exact hg p.1 (by simp [dkeys]; exact ⟨p.2, hp⟩)
    simp [Graph.get_vertex_by_label, hfind]
  · unfold RouteMap.get_vertex_by_label
    match hd : dget rm.findvertex x with
    | none => rfl
    | some v =>
      obtain ⟨wv, hw, hwel⟩ := hc.1 (x, v) (mem_of_dget_eq_some _ _ _ hd)
      exact absurd hwel (hrm wv hw)

/-- C10 witness: on the two-vertex RouteMap rmTwo and the one-edge graph
gOne, label 5 is carried by no vertex; the Graph lookup returns none and
the RouteMap lookup raises KeyError. -/
theorem C10_lookup_miss_witness :
    Graph.get_vertex_by_label gOne 5 = none ∧
    RouteMap.get_vertex_by_label rmTwo 5 = .error .keyError :=
  C10_lookup_miss gOne rmTwo 5 (by decide) (by decide) (by decide)

/-- C7: add_edge fails with the not-found signal None and leaves the
graph unchanged when either endpoint is absent; otherwise it returns the
new edge, stores it for the ordered pair (v, w) (replacing whatever was
stored there), stores it for (w, v) too exactly when the edge is two-way
between distinct vertices, and changes no other ordered pair. -/
theorem C7_add_edge_spec (g : Graph) (v w : Vertex) (x : Int) (ow : Bool) :
    ((dget g.struct v = none ∨ dget g.struct w = none) →
      g.add_edge v w x ow = (g, none)) ∧
    (∀ mv, dget g.struct v = some mv → ∀ mw, dget g.struct w = some mw →
      ((g.add_edge v w x ow).2 = some ⟨g.ectr, v, w, x⟩ ∧
       Graph.get_edge (g.add_edge v w x ow).1 v w = some ⟨g.ectr, v, w, x⟩ ∧
       (ow = false → v ≠ w →
         Graph.get_edge (g.add_edge v w x ow).1 w v =
           some ⟨g.ectr, v, w, x⟩) ∧
       ((ow = true ∨ v = w) → v ≠ w →
         Graph.get_edge (g.add_edge v w x ow).1 w v = Graph.get_edge g w v) ∧
       (∀ a b : Vertex, ¬(a = v ∧ b = w) →
         ¬(ow = false ∧ v ≠ w ∧ a = w ∧ b = v) →
         Graph.get_edge (g.add_edge v w x ow).1 a b =
           Graph.get_edge g a b))) := by
  constructor
  · intro h
    have : (dget g.struct v).isNone ∨ (dget g.struct w).isNone := by
      rcases h with h | h <;> [left; right] <;> simp [h]
    unfold Graph.add_edge
    rcases this with h2 | h2 <;> simp [h2]
  · intro mv hmv mw hmw
    by_cases how : ow = true ∨ v = w
    · have hpair : g.add_edge v w x ow =
          (⟨adjPut g.struct v w ⟨g.ectr, v, w, x⟩, g.vctr, g.ectr + 1⟩,
            some ⟨g.ectr, v, w, x⟩) := by
        unfold Graph.add_edge
        rcases how with h | h <;> simp [hmv, hmw, h]
      refine ⟨by rw [hpair], ?_, ?_, ?_, ?_⟩
      · simp [get_edge_def, hpair, dget_adjPut, hmv, dget_dput_self]
      · intro howf hvw
        rcases how with h | h
        · rw [howf] at h
          exact absurd h (by decide)
        · exact absurd h hvw
      · intro _ hvw
        simp [get_edge_def, hpair, dget_adjPut, Ne.symm hvw]
      · intro a b hab _
        by_cases hav : a = v
        · subst hav
          have hbw : b ≠ w := fun hb => hab ⟨rfl, hb⟩
          simp [get_edge_def, hpair, dget_adjPut, hmv,
            dget_dput_of_ne (Ne.symm hbw)]
        · simp [get_edge_def, hpair, dget_adjPut, hav]
    · push_neg at how
      obtain ⟨howf, hvw⟩ := how
      have howff : ow = false := by
        cases ow
        · rfl
        · exact absurd rfl howf
      have hpair : g.add_edge v w x ow =
          (⟨adjPut (adjPut g.struct v w ⟨g.ectr, v, w, x⟩) w v
              ⟨g.ectr, v, w, x⟩, g.vctr, g.ectr + 1⟩,
            some ⟨g.ectr, v, w, x⟩) := by
        unfold Graph.add_edge
        simp [hmv, hmw, howff, hvw]
      refine ⟨by rw [hpair], ?_, ?_, ?_, ?_⟩
      · simp [get_edge_def, hpair, dget_adjPut, hvw, hmv, dget_dput_self]
      · intro _ _
        simp [get_edge_def, hpair, dget_adjPut, Ne.symm hvw, hmw,
          dget_dput_self]
      · intro how2 _
        rcases how2 with how2 | how2
        · rw [howff] at how2
          exact absurd how2 (by decide)
        · exact absurd how2 hvw
      · intro a b hab hab2
        by_cases haw : a = w
        · subst haw
          have hbv : b ≠ v := fun hb => hab2 ⟨howff, hvw, rfl, hb⟩
          simp [get_edge_def, hpair, dget_adjPut, Ne.symm hvw, hmw,
            dget_dput_of_ne (Ne.symm hbv)]
        · by_cases hav : a = v
          · subst hav
            have hbw : b ≠ w := fun hb => hab ⟨rfl, hb⟩
            simp [get_edge_def, hpair, dget_adjPut, haw, hmv,
              dget_dput_of_ne (Ne.symm hbw)]
          · simp [get_edge_def, hpair, dget_adjPut, haw, hav]

/-- C7 witness: adding a fresh two-way edge between the two vertices of
rmTwo's underlying style graph gOne yields the expected edge, retrievable
in both directions. -/
theorem C7_add_edge_spec_witness :
    (Graph.add_edge gOne ⟨0, 0⟩ ⟨1, 1⟩ 9 false).2 =
      some ⟨1, ⟨0, 0⟩, ⟨1, 1⟩, 9⟩ ∧
    Graph.get_edge (Graph.add_edge gOne ⟨0, 0⟩ ⟨1, 1⟩ 9 false).1 ⟨0, 0⟩ ⟨1, 1⟩ =
      some ⟨1, ⟨0, 0⟩, ⟨1, 1⟩, 9⟩ := by
  have h := (C7_add_edge_spec gOne ⟨0, 0⟩ ⟨1, 1⟩ 9 false).2
    [(⟨1, 1⟩, ⟨0, ⟨0, 0⟩, ⟨1, 1⟩, 7⟩)] (by decide) [] (by decide)
  exact ⟨h.1, h.2.1⟩

/-- C9 amended: in bubble-down, the comparison target is the single child
when no right child exists and the smaller-keyed of the two children
otherwise, and the descent stops as soon as the parent key is strictly
below the chosen child key; when it is not (in particular on equal keys)
the chosen child entry is swapped up into the parent slot, with its index
field rewritten to that slot. -/
theorem C9_amended (q : List Element) (i : Int) (h0 : 0 ≤ i)
    (hchild : 2 * i + 1 < (q.length : Int)) :
    (2 * i + 2 ≥ (q.length : Int) → min_leaf q i = some (2 * i + 1)) ∧
    (∀ a b, 2 * i + 2 < (q.length : Int) →
      pyGet q (2 * i + 1) = some a → pyGet q (2 * i + 2) = some b →
      ∃ ml c, min_leaf q i = some ml ∧
        (ml = 2 * i + 1 ∨ ml = 2 * i + 2) ∧
        pyGet q ml = some c ∧ c.key ≤ a.key ∧ c.key ≤ b.key) ∧
    (∀ ml a c, min_leaf q i = some ml → pyGet q i = some a →
      pyGet q ml = some c → a.key < c.key → bubble_down q i = some q) ∧
    (∀ ml a c, min_leaf q i = some ml → pyGet q i = some a →
      pyGet q ml = some c → ¬ a.key < c.key → ∀ q2,
        bubble_down q i = some q2 →
        q2[i.toNat]? = some ⟨c.key, c.value, i, c.eid⟩) := by
  refine ⟨?_, ?_, ?_, ?_⟩
  · intro hge
    unfold min_leaf
    have : 2 * i + 2 > (q.length : Int) - 1 := by omega
    simp [this]
  · intro a b hlt ha hb
    have hc : ¬(2 * i + 2 > (q.length : Int) - 1) := by omega
    by_cases hk : a.key < b.key
    · refine ⟨2 * i + 1, a, ?_, Or.inl rfl, ha, le_refl _, le_of_lt hk⟩
      unfold min_leaf
      simp [hc, ha, hb, hk]
    · refine ⟨2 * i + 2, b, ?_, Or.inr rfl, hb, not_lt.mp hk, le_refl _⟩
      unfold min_leaf
      simp [hc, ha, hb, hk]
  · intro ml a c hml ha hc hk
    unfold bubble_down
    rw [show q.length + 2 = (q.length + 1) + 1 from rfl]
    unfold bubble_down_go
    simp [hchild, hml, ha, hc, hk]
  · intro ml a c hml ha hc hk q2 hbd
    unfold bubble_down at hbd
    rw [show q.length + 2 = (q.length + 1) + 1 from rfl] at hbd
    unfold bubble_down_go at hbd
    simp only [hchild, if_true, hml, ha, hc, Option.bind_eq_bind,
      Option.some_bind, hk, if_false] at hbd
    cases h1 : modifyIndex q i ml with
    | none => rw [h1] at hbd; simp at hbd
    | some q1 =>
      rw [h1] at hbd
      simp only [Option.bind_eq_bind, Option.some_bind] at hbd
      cases h2 : modifyIndex q1 ml i with
      | none => rw [h2] at hbd; simp at hbd
      | some qb =>
        rw [h2] at hbd
        simp only [Option.bind_eq_bind, Option.some_bind] at hbd
        cases h3 : pySwap qb i ml with
        | none => rw [h3] at hbd; simp at hbd
        | some q3 =>
          rw [h3] at hbd
          simp only [Option.bind_eq_bind, Option.some_bind] at hbd
          have hml2 := min_leaf_cases hml
          have hmlgt : i < ml := by omega
          have hml0 : (0 : Int) ≤ ml := by omega
          have hlow := bubble_down_go_lower (q.length + 1) q3 ml q2 hbd
            (by omega : ((i.toNat : Nat) : Int) < ml)
          rw [hlow]
          obtain ⟨st1, e1, hst1, hge1, hq1⟩ := modifyIndex_elim h1
          obtain ⟨st2, e2, hst2, hge2, hq2⟩ := modifyIndex_elim h2
          obtain ⟨si, sj, ea, eb, hsi, hsj, hgea, hgeb, hq3⟩ :=
            pySwap_elim h3
          have hq1len : q1.length = q.length := by
            rw [hq1, List.length_set]
          have hqblen : qb.length = q.length := by
            rw [hq2, List.length_set, hq1len]
          have hst1v : st1 = i.toNat := (pyIdx_nonneg_elim h0 hst1).1
          have hst2v : st2 = ml.toNat := by
            have := pyIdx_nonneg_elim hml0 (hq1len ▸ hst2)
            exact this.1
          have hsiv : si = i.toNat := by
            have := pyIdx_nonneg_elim h0 (hqblen ▸ hsi)
            exact this.1
          have hine : i.toNat ≠ ml.toNat := by omega
          have hsjv : sj = ml.toNat := by
            have := pyIdx_nonneg_elim hml0 (hqblen ▸ hsj)
            exact this.1
          obtain ⟨hc2, hmllen⟩ := pyGet_nonneg_elim hml0 hc
          have he2 : e2 = c := by
            have hsame : q1[st2]? = q[ml.toNat]? := by
              rw [hst2v, hq1, hst1v, List.getElem?_set_ne hine]
            rw [hsame, hc2] at hge2
            exact (Option.some_inj.mp hge2).symm
          have hebv : eb = { e2 with index := i } := by
            have hsame : qb[sj]? = some { e2 with index := i } := by
              rw [hsjv, hq2, hst2v]
              exact List.getElem?_set_self (by rw [hq1len]; omega)
            rw [hsame] at hgeb
            exact (Option.some_inj.mp hgeb).symm
          rw [hq3, hsjv, hsiv,
            List.getElem?_set_ne (Ne.symm hine),
            List.getElem?_set_self (by rw [hqblen]; omega),
            hebv, he2]

/-- C9 witness: on the equal-key queue qEq the swap branch applies and
moves the child entry (key 1, value 7) into the root slot with index 0;
on a strictly increasing two-entry queue the descent stops at once. -/
theorem C9_amended_witness :
    ([⟨1, 7, 0, 1⟩, ⟨1, 5, 1, 0⟩] : List Element)[(0 : Int).toNat]? =
      some ⟨1, 7, 0, 1⟩ ∧
    bubble_down [⟨1, 5, 0, 0⟩, ⟨2, 7, 1, 1⟩] 0 =
      some [⟨1, 5, 0, 0⟩, ⟨2, 7, 1, 1⟩] := by
  constructor
  · exact (C9_amended qEq 0 (by decide) (by decide)).2.2.2
      1 ⟨1, 5, 0, 0⟩ ⟨1, 7, 1, 1⟩ (by decide) (by decide) (by decide)
      (by decide) [⟨1, 7, 0, 1⟩, ⟨1, 5, 1, 0⟩] rfl
  · exact (C9_amended [⟨1, 5, 0, 0⟩, ⟨2, 7, 1, 1⟩] 0 (by decide)
      (by decide)).2.2.1 1 ⟨1, 5, 0, 0⟩ ⟨2, 7, 1, 1⟩
      (by decide) (by decide) (by decide) (by decide)

/-! Lemmas about graph building: well-formedness is preserved, and the
total adjacency size advances by 2 per two-way and 1 per one-way edge. -/

theorem mem_dput {A B : Type} [DecidableEq A] (m : List (A × B)) (k : A)
    (val : B) : ∀ r ∈ dput m k val, r ∈ m ∨ r = (k, val) := by
  induction m with
  | nil => simp [dput]
  | cons p t ih =>
    intro r hr
    by_cases hp : p.1 = k
    · simp only [dput, hp, if_true] at hr
      rcases List.mem_cons.mp hr with h | h
      · exact Or.inr h
      · exact Or.inl (List.mem_cons_of_mem _ h)
    · simp only [dput, hp, if_false] at hr
      rcases List.mem_cons.mp hr with h | h
      · exact Or.inl (h ▸ List.mem_cons_self _ _)
      · rcases ih r h with h2 | h2
        · exact Or.inl (List.mem_cons_of_mem _ h2)
        · exact Or.inr h2

theorem dkeys_adjPut (adj : Adj) (v w : Vertex) (e : Edge) :
    dkeys (adjPut adj v w e) = dkeys adj := by
  induction adj with
  | nil => rfl
  | cons p t ih =>
    by_cases hp : p.1 = v <;> simp [adjPut, dkeys, hp] <;>
      simpa [adjPut, dkeys] using ih

theorem adjPut_of_not_mem (adj : Adj) (v w : Vertex) (e : Edge)
    (h : v ∉ dkeys adj) : adjPut adj v w e = adj := by
  induction adj with
  | nil => rfl
  | cons p t ih =>
    have hp : p.1 ≠ v := by
      intro he
      exact h (by simp [dkeys, he])
    have ht : v ∉ dkeys t := fun hm => h (by simp [dkeys] at hm ⊢; right; exact hm)
    simp [adjPut, hp]
    simpa [adjPut] using ih ht

theorem adjTotal_adjPut_fresh (adj : Adj) (v w : Vertex) (e : Edge)
    (hnd : (dkeys adj).Nodup) (m : List (Vertex × Edge))
    (hv : dget adj v = some m) (hw : dget m w = none) :
    ((adjPut adj v w e).map (fun p => p.2.length)).sum =
      (adj.map (fun p => p.2.length)).sum + 1 := by
  induction adj with
  | nil => simp [dget] at hv
  | cons p t ih =>
    have hcons : dkeys (p :: t) = p.1 :: dkeys t := rfl
    rw [hcons, List.nodup_cons] at hnd
    by_cases hp : p.1 = v
    · simp only [dget, hp, if_true] at hv
      have hm : p.2 = m := Option.some_inj.mp hv
      have hvt : v ∉ dkeys t := hp ▸ hnd.1
      have hstep : adjPut (p :: t) v w e =
          (p.1, dput p.2 w e) :: adjPut t v w e := by
        simp [adjPut, hp]
      rw [hstep, adjPut_of_not_mem t v w e hvt]
      simp [hm, length_dput_of_none m w e hw]
      omega
    · simp only [dget, hp, if_false] at hv
      have hstep : adjPut (p :: t) v w e = p :: adjPut t v w e := by
        simp [adjPut, hp]
      rw [hstep]
      simp only [List.map_cons, List.sum_cons, ih hnd.2 hv]
      omega

theorem wf_empty : GraphWF Graph.empty := by
  refine ⟨?_, ?_, ?_⟩ <;> simp [Graph.empty, dkeys]

theorem wf_add_vertex (g : Graph) (x : L) (h : GraphWF g) :
    GraphWF (g.add_vertex x).1 := by
  obtain ⟨h1, h2, h3⟩ := h
  refine ⟨?_, ?_, ?_⟩
  · intro p hp
    simp only [Graph.add_vertex, List.mem_append] at hp
    rcases hp with hp | hp
    · exact lt_trans (h1 p hp) (by simp [Graph.add_vertex])
    · simp at hp
      simp [Graph.add_vertex, hp]
  · simp only [Graph.add_vertex, dkeys, List.map_append]
    rw [List.nodup_append]
    refine ⟨h2, by simp, ?_⟩
    intro a ha hb
    simp at hb
    obtain ⟨q, hq, hq1⟩ := List.mem_map.mp ha
    have hlt := h1 q hq
    rw [hq1, hb] at hlt
    simp at hlt
  · intro p hp q hq
    simp only [Graph.add_vertex, List.mem_append] at hp
    rcases hp with hp | hp
    · exact h3 p hp q hq
    · simp at hp
      rw [hp] at hq
      simp at hq

theorem mem_adjPut_elim (adj : Adj) (v w : Vertex) (e : Edge) :
    ∀ p ∈ adjPut adj v w e, ∀ r ∈ p.2,
      (∃ p2 ∈ adj, p2.1 = p.1 ∧ r ∈ p2.2) ∨ r = (w, e) := by
  intro p hp r hr
  obtain ⟨p2, hp2, hfp⟩ := List.mem_map.mp hp
  by_cases hpv : p2.1 = v
  · rw [← hfp] at hr ⊢
    simp only [hpv, if_true] at hr ⊢
    rcases mem_dput p2.2 w e r hr with h | h
    · exact Or.inl ⟨p2, hp2, hpv, h⟩
    · exact Or.inr h
  · rw [← hfp] at hr ⊢
    simp only [hpv, if_false] at hr ⊢
    exact Or.inl ⟨p2, hp2, rfl, hr⟩

theorem vid_bound_adjPut (adj : Adj) (a b : Vertex) (e : Edge) (c : Nat)
    (h : ∀ p ∈ adj, p.1.vid < c) : ∀ p ∈ adjPut adj a b e, p.1.vid < c := by
  intro p hp
  obtain ⟨p2, hp2, hfp⟩ := List.mem_map.mp hp
  have hkey : p.1 = p2.1 := by
    rw [← hfp]
    by_cases hpv : p2.1 = a <;> simp [hpv]
  rw [hkey]
  exact h p2 hp2

theorem eid_bound_adjPut (adj : Adj) (a b : Vertex) (e : Edge) (c : Nat)
    (h : ∀ p ∈ adj, ∀ q ∈ p.2, q.2.eid < c) (he : e.eid < c) :
    ∀ p ∈ adjPut adj a b e, ∀ q ∈ p.2, q.2.eid < c := by
  intro p hp q hq
  rcases mem_adjPut_elim adj a b e p hp q hq with ⟨p2, hp2, _, hq2⟩ | hq2
  · exact h p2 hp2 q hq2
  · rw [hq2]
    exact he

theorem wf_add_edge (g : Graph) (v w : Vertex) (x : Int) (ow : Bool)
    (h : GraphWF g) : GraphWF (g.add_edge v w x ow).1 := by
  obtain ⟨h1, h2, h3⟩ := h
  unfold Graph.add_edge
  by_cases hcond : (dget g.struct v).isNone ∨ (dget g.struct w).isNone
  · simp only [hcond, if_true]
    exact ⟨h1, h2, h3⟩
  · simp only [hcond, if_false]
    have h3b : ∀ p ∈ g.struct, ∀ q ∈ p.2, q.2.eid < g.ectr + 1 :=
      fun p hp q hq => lt_trans (h3 p hp q hq) (by omega)
    by_cases how : ow = true ∨ v = w
    · simp only [how, if_true]
      exact ⟨vid_bound_adjPut _ _ _ _ _ h1,
        by rw [dkeys_adjPut]; exact h2,
        eid_bound_adjPut _ _ _ _ _ h3b (by simp)⟩
    · simp only [how, if_false]
      refine ⟨?_, ?_, ?_⟩
      · exact vid_bound_adjPut _ _ _ _ _ (vid_bound_adjPut _ _ _ _ _ h1)
      · rw [dkeys_adjPut, dkeys_adjPut]
        exact h2
      · exact eid_bound_adjPut _ _ _ _ _
          (eid_bound_adjPut _ _ _ _ _ h3b (by simp)) (by simp)

theorem wf_bstep (g : Graph) (i : BInstr) (h : GraphWF g) :
    GraphWF (bstep g i) := by
  cases i with
  | addV x => exact wf_add_vertex g x h
  | addE v w x ow => exact wf_add_edge g v w x ow h

theorem adjTotal_bstep (g : Graph) (i : BInstr) (hwf : GraphWF g)
    (hok : instrOk g i = true) (hns : noSelfLoop [i] = true) :
    adjTotal (bstep g i) = adjTotal g + instrContribution i := by
  cases i with
  | addV x =>
    simp only [bstep, adjTotal, Graph.add_vertex, List.map_append,
      instrContribution]
    simp
  | addE a b x ow =>
    simp only [instrOk] at hok
    cases hmv : dget g.struct a with
    | none => rw [hmv] at hok; simp at hok
    | some mv =>
      cases hmw : dget g.struct b with
      | none => rw [hmv, hmw] at hok; simp at hok
      | some mw =>
        rw [hmv, hmw] at hok
        simp only [Bool.and_eq_true, Bool.or_eq_true] at hok
        have hfresh1 : dget mv b = none := by
          have := hok.1
          cases hg : dget mv b
          · rfl
          · rw [hg] at this
            simp at this
        have hanb : a ≠ b := by
          have := hns
          simp [noSelfLoop] at this
          exact this
        have hcond : ¬((dget g.struct a).isNone = true ∨
            (dget g.struct b).isNone = true) := by
          simp [hmv, hmw]
        cases ow with
        | true =>
          simp only [bstep, Graph.add_edge, hcond, if_false, if_true,
            Bool.true_eq, true_or, adjTotal, instrContribution]
          exact adjTotal_adjPut_fresh g.struct a b _ hwf.2.1 mv hmv hfresh1
        | false =>
          have hfresh2 : dget mw a = none := by
            rcases hok.2 with hf | hf
            · rcases hf with hf | hf
              · simp at hf
              · exact absurd (by simpa using hf) hanb
            · cases hg : dget mw a
              · rfl
              · rw [hg] at hf
                simp at hf
          have hgoal : bstep g (.addE a b x false) =
              ⟨adjPut (adjPut g.struct a b ⟨g.ectr, a, b, x⟩) b a
                ⟨g.ectr, a, b, x⟩, g.vctr, g.ectr + 1⟩ := by
            simp only [bstep, Graph.add_edge, hcond, if_false]
            simp [hanb]
          rw [hgoal]
          have hstep1 : ((adjPut g.struct a b
              ⟨g.ectr, a, b, x⟩).map (fun p => p.2.length)).sum =
              (g.struct.map (fun p => p.2.length)).sum + 1 :=
            adjTotal_adjPut_fresh g.struct a b _ hwf.2.1 mv hmv hfresh1
          have hmw2 : dget (adjPut g.struct a b ⟨g.ectr, a, b, x⟩) b =
              some mw := by
            rw [dget_adjPut]
            simp [Ne.symm hanb, hmw]
          have hnd2 : (dkeys (adjPut g.struct a b
              ⟨g.ectr, a, b, x⟩)).Nodup := by
            rw [dkeys_adjPut]
            exact hwf.2.1
          have hstep2 := adjTotal_adjPut_fresh
            (adjPut g.struct a b ⟨g.ectr, a, b, x⟩) b a ⟨g.ectr, a, b, x⟩
            hnd2 mw hmw2 hfresh2
          simp only [adjTotal, instrContribution] at hstep1 hstep2 ⊢
          rw [hstep2, hstep1]
          simp

theorem adjTotal_build : ∀ (is : List BInstr) (g : Graph), GraphWF g →
    buildOk g is = true → noSelfLoop is = true →
    adjTotal (build g is) =
      adjTotal g + 2 * twoWayCount is + oneWayCount is := by
  intro is
  induction is with
  | nil =>
    intro g _ _ _
    simp [build, twoWayCount, oneWayCount]
  | cons i t ih =>
    intro g hwf hok hns
    simp only [buildOk, Bool.and_eq_true] at hok
    have hnst : noSelfLoop t = true := by
      cases i with
      | addV _ => simpa [noSelfLoop] using hns
      | addE a b x ow =>
        simp only [noSelfLoop, Bool.and_eq_true] at hns
        exact hns.2
    have hnsi : noSelfLoop [i] = true := by
      cases i with
      | addV _ => rfl
      | addE a b x ow =>
        simp only [noSelfLoop, Bool.and_eq_true] at hns ⊢
        exact ⟨hns.1, by simp [noSelfLoop]⟩
    have hbuild : build g (i :: t) = build (bstep g i) t := rfl
    rw [hbuild, ih (bstep g i) (wf_bstep g i hwf) hok.2 hnst]
    rw [adjTotal_bstep g i hwf hok.1 hnsi]
    cases i with
    | addV x =>
      simp [twoWayCount, oneWayCount, instrContribution]
    | addE a b x ow =>
      cases ow with
      | true =>
        simp [twoWayCount, oneWayCount, instrContribution, List.filter]
        omega
      | false =>
        simp [twoWayCount, oneWayCount, instrContribution, List.filter]
        omega

/-- C6 amended: for a build script from the empty graph whose add_edge
calls all succeed on fresh ordered pairs between distinct vertices,
creating k two-way and m one-way edges, num_edges returns k + m / 2 with
floor division (equal to the k + m of the claim only when m = 0). -/
theorem C6_amended (is : List BInstr)
    (h1 : buildOk Graph.empty is = true) (h2 : noSelfLoop is = true) :
    Graph.num_edges (build Graph.empty is) =
      twoWayCount is + oneWayCount is / 2 := by
  have h := adjTotal_build is Graph.empty wf_empty h1 h2
  have hne : Graph.num_edges (build Graph.empty is) =
      adjTotal (build Graph.empty is) / 2 := rfl
  have hempty : adjTotal Graph.empty = 0 := rfl
  rw [hne, h, hempty]
  omega

/-- C6 witness: one two-way and one one-way edge give num_edges
1 + 1 / 2 = 1. -/
theorem C6_amended_witness :
    Graph.num_edges (build Graph.empty
      [.addV 0, .addV 1, .addV 2,
       .addE ⟨0, 0⟩ ⟨1, 1⟩ 5 false, .addE ⟨0, 0⟩ ⟨2, 2⟩ 3 true]) = 1 := by
  have h := C6_amended
    [.addV 0, .addV 1, .addV 2,
     .addE ⟨0, 0⟩ ⟨1, 1⟩ 5 false, .addE ⟨0, 0⟩ ⟨2, 2⟩ 3 true]
    (by decide) (by decide)
  exact h.trans (by decide)

/-! Lemmas for the edge-retrieval invariant: what one add_edge call
establishes, and that later fresh build calls preserve it. -/

theorem dget_append {A B : Type} [DecidableEq A] (m m2 : List (A × B))
    (k : A) :
    dget (m ++ m2) k =
      match dget m k with
      | some v => some v
      | none => dget m2 k := by
  induction m with
  | nil => simp [dget]
  | cons p t ih =>
    by_cases hp : p.1 = k
    · simp [dget, hp]
    · simp [dget, hp, ih]

theorem dget_append_cases {A B : Type} [DecidableEq A]
    {m m2 : List (A × B)} {k : A} {v : B}
    (h : dget (m ++ m2) k = some v) :
    dget m k = some v ∨ (dget m k = none ∧ dget m2 k = some v) := by
  induction m with
  | nil => exact Or.inr ⟨rfl, h⟩
  | cons p t ih =>
    by_cases hp : p.1 = k
    · left
      simpa [dget, hp] using h
    · simp only [List.cons_append, dget, hp, if_false] at h ⊢
      exact ih h

theorem dget_dput_cases {A B : Type} [DecidableEq A]
    {m : List (A × B)} {k k2 : A} {val r : B}
    (h : dget (dput m k val) k2 = some r) :
    dget m k2 = some r ∨ (k2 = k ∧ r = val) := by
  by_cases hk : k2 = k
  · subst hk
    rw [dget_dput_self] at h
    exact Or.inr ⟨rfl, (Option.some_inj.mp h).symm⟩
  · rw [dget_dput_of_ne (Ne.symm hk)] at h
    exact Or.inl h

theorem build_append (g : Graph) (as bs : List BInstr) :
    build g (as ++ bs) = build (build g as) bs := by
  simp [build, List.foldl_append]

theorem buildOk_append : ∀ (as : List BInstr) (bs : List BInstr) (g : Graph),
    buildOk g (as ++ bs) = (buildOk g as && buildOk (build g as) bs) := by
  intro as
  induction as with
  | nil => intro bs g; simp [buildOk, build]
  | cons i t ih =>
    intro bs g
    show (instrOk g i && buildOk (bstep g i) (t ++ bs)) =
      ((instrOk g i && buildOk (bstep g i) t) &&
        buildOk (build (bstep g i) t) bs)
    rw [ih bs (bstep g i), Bool.and_assoc]

theorem wf_build : ∀ (is : List BInstr) (g : Graph), GraphWF g →
    GraphWF (build g is) := by
  intro is
  induction is with
  | nil => intro g h; exact h
  | cons i t ih =>
    intro g h
    exact ih (bstep g i) (wf_bstep g i h)

theorem ectr_bstep_le (g : Graph) (i : BInstr) :
    g.ectr ≤ (bstep g i).ectr := by
  cases i with
  | addV x => simp [bstep, Graph.add_vertex]
  | addE v w x ow =>
    show g.ectr ≤ (Graph.add_edge g v w x ow).1.ectr
    unfold Graph.add_edge
    cases hv : dget g.struct v with
    | none => simp [hv]
    | some mv =>
      cases hw : dget g.struct w with
      | none => simp [hv, hw]
      | some mw =>
        by_cases how : ow = true ∨ v = w
        · rcases how with h2 | h2 <;> simp [hv, hw, h2]
        · push_neg at how
          have howff : ow = false := by
            cases ow
            · rfl
            · exact absurd rfl how.1
          simp [hv, hw, howff, how.2]

theorem ectr_build_le : ∀ (is : List BInstr) (g : Graph),
    g.ectr ≤ (build g is).ectr := by
  intro is
  induction is with
  | nil => intro g; exact le_refl _
  | cons i t ih =>
    intro g
    exact le_trans (ectr_bstep_le g i) (ih (bstep g i))

theorem dget2_adjPut_preserve (adj : Adj) (a b : Vertex) (e2 : Edge)
    {v w : Vertex} {m ma : List (Vertex × Edge)} {e : Edge}
    (hma : dget adj a = some ma) (hfr : dget ma b = none)
    (hv : dget adj v = some m) (hw : dget m w = some e) :
    ∃ m2, dget (adjPut adj a b e2) v = some m2 ∧ dget m2 w = some e := by
  rw [dget_adjPut]
  by_cases hva : v = a
  · subst hva
    rw [hv] at hma
    have hmeq : m = ma := Option.some_inj.mp hma
    subst hmeq
    refine ⟨dput m b e2, ?_, ?_⟩
    · rw [if_pos rfl, hv]
      rfl
    · have hwb : w ≠ b := by
        intro he
        rw [he, hfr] at hw
        exact Option.noConfusion hw
      rw [dget_dput_of_ne (Ne.symm hwb)]
      exact hw
  · rw [if_neg hva]
    exact ⟨m, hv, hw⟩

theorem instrOk_addE_elim {g : Graph} {v w : Vertex} {x : Int} {ow : Bool}
    (hok : instrOk g (.addE v w x ow) = true) :
    ∃ mv mw, dget g.struct v = some mv ∧ dget g.struct w = some mw ∧
      dget mv w = none ∧
      (ow = false → v ≠ w → dget mw v = none) := by
  simp only [instrOk] at hok
  cases hmv : dget g.struct v with
  | none => rw [hmv] at hok; simp at hok
  | some mv =>
    cases hmw : dget g.struct w with
    | none => rw [hmv, hmw] at hok; simp at hok
    | some mw =>
      rw [hmv, hmw] at hok
      simp only [Bool.and_eq_true, Bool.or_eq_true] at hok
      refine ⟨mv, mw, rfl, rfl, ?_, ?_⟩
      · have := hok.1
        cases hg : dget mv w
        · rfl
        · rw [hg] at this
          simp at this
      · intro howf hvw
        rcases hok.2 with hf | hf
        · rcases hf with hf | hf
          · rw [howf] at hf
            simp at hf
          · exact absurd (by simpa using hf) hvw
        · cases hg : dget mw v
          · rfl
          · rw [hg] at hf
            simp at hf

theorem get_edge_persists : ∀ (is : List BInstr) (g : Graph),
    buildOk g is = true → ∀ (v w : Vertex) (e : Edge),
    Graph.get_edge g v w = some e →
    Graph.get_edge (build g is) v w = some e := by
  intro is
  induction is with
  | nil => intro g _ v w e h; exact h
  | cons i t ih =>
    intro g hok v w e h
    simp only [buildOk, Bool.and_eq_true] at hok
    have hbuild : build g (i :: t) = build (bstep g i) t := rfl
    rw [hbuild]
    refine ih (bstep g i) hok.2 v w e ?_
    rw [get_edge_def] at h
    cases hv : dget g.struct v with
    | none => rw [hv] at h; simp at h
    | some m =>
      rw [hv] at h
      simp only [Option.some_bind] at h
      cases i with
      | addV y =>
        rw [get_edge_def]
        have : dget (bstep g (.addV y)).struct v = some m := by
          simp only [bstep, Graph.add_vertex]
          rw [dget_append, hv]
        rw [this]
        simpa using h
      | addE a b y ow =>
        obtain ⟨ma, mb, hma, hmb, hfr1, hfr2⟩ := instrOk_addE_elim hok.1
        have hcond : ¬((dget g.struct a).isNone = true ∨
            (dget g.struct b).isNone = true) := by
          simp [hma, hmb]
        by_cases how : ow = true ∨ a = b
        · have hstruct : (bstep g (.addE a b y ow)).struct =
              adjPut g.struct a b ⟨g.ectr, a, b, y⟩ := by
            show (Graph.add_edge g a b y ow).1.struct = _
            unfold Graph.add_edge
            rcases how with h2 | h2 <;> simp [hma, hmb, h2]
          rw [get_edge_def, hstruct]
          obtain ⟨m2, hm2, hm2w⟩ := dget2_adjPut_preserve g.struct a b
            ⟨g.ectr, a, b, y⟩ hma hfr1 hv h
          rw [hm2]
          simpa using hm2w
        · push_neg at how
          have howff : ow = false := by
            cases ow
            · rfl
            · exact absurd rfl how.1
          have hstruct : (bstep g (.addE a b y ow)).struct =
              adjPut (adjPut g.struct a b ⟨g.ectr, a, b, y⟩) b a
                ⟨g.ectr, a, b, y⟩ := by
            show (Graph.add_edge g a b y ow).1.struct = _
            unfold Graph.add_edge
            simp [hma, hmb, howff, how.2]
          rw [get_edge_def, hstruct]
          obtain ⟨m2, hm2, hm2w⟩ := dget2_adjPut_preserve g.struct a b
            ⟨g.ectr, a, b, y⟩ hma hfr1 hv h
          have hmb2 : dget (adjPut g.struct a b ⟨g.ectr, a, b, y⟩) b =
              some mb := by
            rw [dget_adjPut]
            simp [Ne.symm how.2, hmb]
          have hfr2b : dget mb a = none := hfr2 howff how.2
          obtain ⟨m3, hm3, hm3w⟩ := dget2_adjPut_preserve
            (adjPut g.struct a b ⟨g.ectr, a, b, y⟩) b a
            ⟨g.ectr, a, b, y⟩ hmb2 hfr2b hm2 hm2w
          rw [hm3]
          simpa using hm3w

theorem get_edge_new_eid {g : Graph} {i : BInstr} {v w : Vertex} {e : Edge}
    (h : Graph.get_edge (bstep g i) v w = some e) :
    Graph.get_edge g v w = some e ∨ e.eid = g.ectr := by
  cases i with
  | addV y =>
    rw [get_edge_def] at h ⊢
    have hst : (bstep g (.addV y)).struct =
        g.struct ++ [(⟨g.vctr, y⟩, [])] := rfl
    rw [hst] at h
    cases hm0 : dget (g.struct ++ [(⟨g.vctr, y⟩, [])]) v with
    | none => rw [hm0] at h; simp at h
    | some m0 =>
      rw [hm0] at h
      simp only [Option.some_bind] at h
      rcases dget_append_cases hm0 with h1 | h1
      · rw [h1]
        exact Or.inl (by simpa using h)
      · have hm0nil : m0 = [] := by
          have h2 := h1.2
          by_cases hq : (⟨g.vctr, y⟩ : Vertex) = v
          · simp [dget, hq] at h2
            exact h2
          · simp [dget, hq] at h2
        rw [hm0nil] at h
        simp [dget] at h
  | addE a b y ow =>
    by_cases hcond : (dget g.struct a).isNone ∨ (dget g.struct b).isNone
    · have hg2 : bstep g (.addE a b y ow) = g := by
        show (Graph.add_edge g a b y ow).1 = g
        unfold Graph.add_edge
        rw [if_pos hcond]
      rw [hg2] at h
      exact Or.inl h
    · by_cases how : ow = true ∨ a = b
      · have hg2 : bstep g (.addE a b y ow) =
            ⟨adjPut g.struct a b ⟨g.ectr, a, b, y⟩, g.vctr, g.ectr + 1⟩ := by
          show (Graph.add_edge g a b y ow).1 = _
          unfold Graph.add_edge
          rw [if_neg hcond, if_pos how]
        rw [hg2, get_edge_def] at h
        have hstr : (⟨adjPut g.struct a b ⟨g.ectr, a, b, y⟩, g.vctr,
            g.ectr + 1⟩ : Graph).struct =
            adjPut g.struct a b ⟨g.ectr, a, b, y⟩ := rfl
        rw [hstr, dget_adjPut] at h
        by_cases hva : v = a
        · subst hva
          rw [if_pos rfl] at h
          cases hma : dget g.struct v with
          | none => rw [hma] at h; simp at h
          | some ma =>
            rw [hma] at h
            simp only [Option.map_some', Option.some_bind] at h
            rcases dget_dput_cases h with h2 | h2
            · exact Or.inl (by rw [get_edge_def, hma]; simpa using h2)
            · exact Or.inr (by rw [h2.2])
        · rw [if_neg hva] at h
          exact Or.inl (by rw [get_edge_def]; exact h)
      · have hg2 : bstep g (.addE a b y ow) =
            ⟨adjPut (adjPut g.struct a b ⟨g.ectr, a, b, y⟩) b a
              ⟨g.ectr, a, b, y⟩, g.vctr, g.ectr + 1⟩ := by
          show (Graph.add_edge g a b y ow).1 = _
          unfold Graph.add_edge
          rw [if_neg hcond, if_neg how]
        rw [hg2, get_edge_def] at h
        have hstr : (⟨adjPut (adjPut g.struct a b ⟨g.ectr, a, b, y⟩) b a
            ⟨g.ectr, a, b, y⟩, g.vctr, g.ectr + 1⟩ : Graph).struct =
            adjPut (adjPut g.struct a b ⟨g.ectr, a, b, y⟩) b a
              ⟨g.ectr, a, b, y⟩ := rfl
        rw [hstr, dget_adjPut] at h
        by_cases hvb : v = b
        · subst hvb
          rw [if_pos rfl, dget_adjPut] at h
          by_cases hva : v = a
          · subst hva
            rw [if_pos rfl] at h
            cases hma : dget g.struct v with
            | none => rw [hma] at h; simp at h
            | some ma =>
              rw [hma] at h
              simp only [Option.map_some', Option.some_bind] at h
              rcases dget_dput_cases h with h2 | h2
              · rcases dget_dput_cases h2 with h3 | h3
                · exact Or.inl (by rw [get_edge_def, hma]; simpa using h3)
                · exact Or.inr (by rw [h3.2])
              · exact Or.inr (by rw [h2.2])
          · rw [if_neg hva] at h
            cases hmb : dget g.struct v with
            | none => rw [hmb] at h; simp at h
            | some mb =>
              rw [hmb] at h
              simp only [Option.map_some', Option.some_bind] at h
              rcases dget_dput_cases h with h2 | h2
              · exact Or.inl (by rw [get_edge_def, hmb]; simpa using h2)
              · exact Or.inr (by rw [h2.2])
        · rw [if_neg hvb, dget_adjPut] at h
          by_cases hva : v = a
          · subst hva
            rw [if_pos rfl] at h
            cases hma : dget g.struct v with
            | none => rw [hma] at h; simp at h
            | some ma =>
              rw [hma] at h
              simp only [Option.map_some', Option.some_bind] at h
              rcases dget_dput_cases h with h2 | h2
              · exact Or.inl (by rw [get_edge_def, hma]; simpa using h2)
              · exact Or.inr (by rw [h2.2])
          · rw [if_neg hva] at h
            exact Or.inl (by rw [get_edge_def]; exact h)

theorem get_edge_eid_persists : ∀ (is : List BInstr) (g : Graph) (k : Nat),
    k < g.ectr →
    ∀ (v w : Vertex),
    (∀ e2, Graph.get_edge g v w = some e2 → e2.eid ≠ k) →
    (∀ e2, Graph.get_edge (build g is) v w = some e2 → e2.eid ≠ k) := by
  intro is
  induction is with
  | nil => intro g k _ v w h e2 he2; exact h e2 he2
  | cons i t ih =>
    intro g k hk v w h e2 he2
    have hbuild : build g (i :: t) = build (bstep g i) t := rfl
    rw [hbuild] at he2
    refine ih (bstep g i) k (lt_of_lt_of_le hk (ectr_bstep_le g i)) v w
      ?_ e2 he2
    intro e3 he3
    rcases get_edge_new_eid he3 with h2 | h2
    · exact h e3 h2
    · rw [h2]
      omega

theorem add_edge_establish (g : Graph) (v w : Vertex) (x : Int) (ow : Bool)
    (hwf : GraphWF g) (hok : instrOk g (.addE v w x ow) = true) :
    (bstep g (.addE v w x ow)).ectr = g.ectr + 1 ∧
    (ow = false → v ≠ w →
      Graph.get_edge (bstep g (.addE v w x ow)) v w =
        some ⟨g.ectr, v, w, x⟩ ∧
      Graph.get_edge (bstep g (.addE v w x ow)) w v =
        some ⟨g.ectr, v, w, x⟩) ∧
    ((ow = true ∨ v = w) →
      Graph.get_edge (bstep g (.addE v w x ow)) v w =
        some ⟨g.ectr, v, w, x⟩ ∧
      (v ≠ w → ∀ e2, Graph.get_edge (bstep g (.addE v w x ow)) w v =
        some e2 → e2.eid ≠ g.ectr)) := by
  obtain ⟨mv, mw, hmv, hmw, hfr1, hfr2⟩ := instrOk_addE_elim hok
  have hcond : ¬((dget g.struct v).isNone = true ∨
      (dget g.struct w).isNone = true) := by
    simp [hmv, hmw]
  by_cases how : ow = true ∨ v = w
  · have hg2 : bstep g (.addE v w x ow) =
        ⟨adjPut g.struct v w ⟨g.ectr, v, w, x⟩, g.vctr, g.ectr + 1⟩ := by
      show (Graph.add_edge g v w x ow).1 = _
      unfold Graph.add_edge
      rw [if_neg hcond, if_pos how]
    refine ⟨by rw [hg2], ?_, ?_⟩
    · intro howf hvw
      rcases how with h2 | h2
      · rw [howf] at h2
        exact absurd h2 (by decide)
      · exact absurd h2 hvw
    · intro _
      constructor
      · rw [hg2, get_edge_def]
        have hstr : (⟨adjPut g.struct v w ⟨g.ectr, v, w, x⟩, g.vctr,
            g.ectr + 1⟩ : Graph).struct =
            adjPut g.struct v w ⟨g.ectr, v, w, x⟩ := rfl
        rw [hstr, dget_adjPut, if_pos rfl, hmv]
        simp [dget_dput_self]
      · intro hvw e2 he2
        rw [hg2, get_edge_def] at he2
        have hstr : (⟨adjPut g.struct v w ⟨g.ectr, v, w, x⟩, g.vctr,
            g.ectr + 1⟩ : Graph).struct =
            adjPut g.struct v w ⟨g.ectr, v, w, x⟩ := rfl
        rw [hstr, dget_adjPut, if_neg (Ne.symm hvw), hmw] at he2
        simp only [Option.some_bind] at he2
        have hmem1 := mem_of_dget_eq_some g.struct w mw hmw
        have hmem2 := mem_of_dget_eq_some mw v e2 he2
        have hlt : e2.eid < g.ectr := hwf.2.2 (w, mw) hmem1 (v, e2) hmem2
        omega
  · push_neg at how
    have howff : ow = false := by
      cases ow
      · rfl
      · exact absurd rfl how.1
    have hg2 : bstep g (.addE v w x ow) =
        ⟨adjPut (adjPut g.struct v w ⟨g.ectr, v, w, x⟩) w v
          ⟨g.ectr, v, w, x⟩, g.vctr, g.ectr + 1⟩ := by
      show (Graph.add_edge g v w x ow).1 = _
      unfold Graph.add_edge
      rw [if_neg hcond, if_neg (by
        intro h2
        rcases h2 with h2 | h2
        · rw [howff] at h2
          exact absurd h2 (by decide)
        · exact absurd h2 how.2)]
    have hstr : (⟨adjPut (adjPut g.struct v w ⟨g.ectr, v, w, x⟩) w v
        ⟨g.ectr, v, w, x⟩, g.vctr, g.ectr + 1⟩ : Graph).struct =
        adjPut (adjPut g.struct v w ⟨g.ectr, v, w, x⟩) w v
          ⟨g.ectr, v, w, x⟩ := rfl
    refine ⟨by rw [hg2], ?_, ?_⟩
    · intro _ hvw
      constructor
      · rw [hg2, get_edge_def, hstr, dget_adjPut, if_neg hvw,
          dget_adjPut, if_pos rfl, hmv]
        simp [dget_dput_self]
      · rw [hg2, get_edge_def, hstr, dget_adjPut, if_pos rfl,
          dget_adjPut, if_neg (Ne.symm hvw), hmw]
        simp [dget_dput_self]
    · intro h2
      rcases h2 with h2 | h2
      · rw [howff] at h2
        exact absurd h2 (by decide)
      · exact absurd h2 how.2

/-- C8 amended: in a build script in which no ordered vertex pair is
re-added, the edge created by a two-way add_edge call is retrievable as
the same Edge instance (same identity) in both directions in the final
graph, while the edge of a one-way call is retrievable only in its own
direction: the reverse lookup, if it finds anything, finds a different
instance. -/
theorem C8_amended (pre post : List BInstr) (v w : Vertex) (x : Int)
    (ow : Bool)
    (hok : buildOk Graph.empty (pre ++ .addE v w x ow :: post) = true) :
    (ow = false → v ≠ w →
      Graph.get_edge (build Graph.empty (pre ++ .addE v w x ow :: post)) v w
        = some ⟨(build Graph.empty pre).ectr, v, w, x⟩ ∧
      Graph.get_edge (build Graph.empty (pre ++ .addE v w x ow :: post)) w v
        = some ⟨(build Graph.empty pre).ectr, v, w, x⟩) ∧
    ((ow = true ∨ v = w) →
      Graph.get_edge (build Graph.empty (pre ++ .addE v w x ow :: post)) v w
        = some ⟨(build Graph.empty pre).ectr, v, w, x⟩ ∧
      (v ≠ w → ∀ e2,
        Graph.get_edge (build Graph.empty (pre ++ .addE v w x ow :: post))
          w v = some e2 →
        e2 ≠ ⟨(build Graph.empty pre).ectr, v, w, x⟩)) := by
  rw [buildOk_append] at hok
  simp only [Bool.and_eq_true] at hok
  obtain ⟨hok1, hok2⟩ := hok
  have hok2b : instrOk (build Graph.empty pre) (.addE v w x ow) = true ∧
      buildOk (bstep (build Graph.empty pre) (.addE v w x ow)) post =
        true := by
    simpa [buildOk, Bool.and_eq_true] using hok2
  have hwfmid : GraphWF (build Graph.empty pre) :=
    wf_build pre Graph.empty wf_empty
  obtain ⟨hectr, hTW, hOW⟩ := add_edge_establish (build Graph.empty pre)
    v w x ow hwfmid hok2b.1
  have hbfin : build Graph.empty (pre ++ .addE v w x ow :: post) =
      build (bstep (build Graph.empty pre) (.addE v w x ow)) post := by
    rw [build_append]
    rfl
  constructor
  · intro howf hvw
    obtain ⟨hvw1, hvw2⟩ := hTW howf hvw
    constructor
    · rw [hbfin]
      exact get_edge_persists post _ hok2b.2 v w _ hvw1
    · rw [hbfin]
      exact get_edge_persists post _ hok2b.2 w v _ hvw2
  · intro how
    obtain ⟨hvw1, hvw2⟩ := hOW how
    constructor
    · rw [hbfin]
      exact get_edge_persists post _ hok2b.2 v w _ hvw1
    · intro hvw e2 he2
      rw [hbfin] at he2
      have heid := get_edge_eid_persists post _
        ((build Graph.empty pre).ectr) (by omega) w v (hvw2 hvw) e2 he2
      intro hcontra
      rw [hcontra] at heid
      exact heid rfl

/-- C8 witness: in the script addV 0, addV 1, two-way addE, addV 2 the
two-way edge (identity 0) is returned identically by both directed
lookups in the final graph. -/
theorem C8_amended_witness :
    Graph.get_edge
      (build Graph.empty
        ([.addV 0, .addV 1] ++ .addE ⟨0, 0⟩ ⟨1, 1⟩ 5 false :: [.addV 2]))
      ⟨0, 0⟩ ⟨1, 1⟩ = some ⟨0, ⟨0, 0⟩, ⟨1, 1⟩, 5⟩ ∧
    Graph.get_edge
      (build Graph.empty
        ([.addV 0, .addV 1] ++ .addE ⟨0, 0⟩ ⟨1, 1⟩ 5 false :: [.addV 2]))
      ⟨1, 1⟩ ⟨0, 0⟩ = some ⟨0, ⟨0, 0⟩, ⟨1, 1⟩, 5⟩ :=
  (C8_amended [.addV 0, .addV 1] [.addV 2] ⟨0, 0⟩ ⟨1, 1⟩ 5 false
    (by decide)).1 rfl (by decide)

/-! Lemmas tracking which payload values can sit in the queue after each
APQ operation: no operation invents a value, add contributes exactly its
item, and the popped entry of remove_min was in the queue.  These feed
the reachability invariant of dijkstra. -/

theorem mem_of_getElem? {q : List Element} {s : Nat} {e : Element}
    (h : q[s]? = some e) : e ∈ q := by
  obtain ⟨hlt, hget⟩ := List.getElem?_eq_some.mp h
  rw [← hget]
  exact List.getElem_mem hlt

theorem pyGet_mem {q : List Element} {i : Int} {e : Element}
    (h : pyGet q i = some e) : e ∈ q := by
  unfold pyGet at h
  cases hidx : pyIdx q.length i with
  | none => rw [hidx] at h; simp at h
  | some s =>
    rw [hidx] at h
    simp only [Option.some_bind] at h
    exact mem_of_getElem? h

theorem modifyIndex_values {q q2 : List Element} {t n : Int}
    (h : modifyIndex q t n = some q2) :
    ∀ e ∈ q2, e.value ∈ q.map (·.value) := by
  obtain ⟨st, e0, hst, hget, hq2⟩ := modifyIndex_elim h
  intro e he
  rw [hq2] at he
  rcases List.mem_or_eq_of_mem_set he with h2 | h2
  · exact List.mem_map.mpr ⟨e, h2, rfl⟩
  · rw [h2]
    exact List.mem_map.mpr ⟨e0, mem_of_getElem? hget, rfl⟩

theorem pySwap_values {q q2 : List Element} {i j : Int}
    (h : pySwap q i j = some q2) :
    ∀ e ∈ q2, e.value ∈ q.map (·.value) := by
  obtain ⟨si, sj, a, b, hsi, hsj, ha, hb, hq2⟩ := pySwap_elim h
  intro e he
  rw [hq2] at he
  rcases List.mem_or_eq_of_mem_set he with h2 | h2
  · rcases List.mem_or_eq_of_mem_set h2 with h3 | h3
    · exact List.mem_map.mpr ⟨e, h3, rfl⟩
    · rw [h3]
      exact List.mem_map.mpr ⟨b, mem_of_getElem? hb, rfl⟩
  · rw [h2]
    exact List.mem_map.mpr ⟨a, mem_of_getElem? ha, rfl⟩

theorem bubble_down_go_values :
    ∀ (f : Nat) (q : List Element) (j : Int) (q2 : List Element),
      bubble_down_go f q j = some q2 →
      ∀ e ∈ q2, e.value ∈ q.map (·.value) := by
  intro f
  induction f with
  | zero => intro q j q2 h; simp [bubble_down_go] at h
  | succ f ih =>
    intro q j q2 h
    unfold bubble_down_go at h
    by_cases hc : 2 * j + 1 < (q.length : Int)
    · simp only [hc, if_true] at h
      cases hml : min_leaf q j with
      | none => rw [hml] at h; simp at h
      | some ml =>
        rw [hml] at h
        simp only [Option.bind_eq_bind, Option.some_bind] at h
        cases ha : pyGet q j with
        | none => rw [ha] at h; simp at h
        | some a =>
          rw [ha] at h
          simp only [Option.bind_eq_bind, Option.some_bind] at h
          cases hcg : pyGet q ml with
          | none => rw [hcg] at h; simp at h
          | some c =>
            rw [hcg] at h
            simp only [Option.bind_eq_bind, Option.some_bind] at h
            by_cases hk : a.key < c.key
            · simp only [hk, if_true] at h
              intro e he
              rw [← Option.some_inj.mp h] at he
              exact List.mem_map.mpr ⟨e, he, rfl⟩
            · simp only [hk, if_false] at h
              cases h1 : modifyIndex q j ml with
              | none => rw [h1] at h; simp at h
              | some q1 =>
                rw [h1] at h
                simp only [Option.bind_eq_bind, Option.some_bind] at h
                cases h2 : modifyIndex q1 ml j with
                | none => rw [h2] at h; simp at h
                | some qb =>
                  rw [h2] at h
                  simp only [Option.bind_eq_bind, Option.some_bind] at h
                  cases h3 : pySwap qb j ml with
                  | none => rw [h3] at h; simp at h
                  | some q3 =>
                    rw [h3] at h
                    simp only [Option.bind_eq_bind, Option.some_bind] at h
                    intro e he
                    have hv3 := ih q3 ml q2 h e he
                    obtain ⟨e3, he3, he3v⟩ := List.mem_map.mp hv3
                    have hvb := pySwap_values h3 e3 he3
                    obtain ⟨eb, heb, hebv⟩ := List.mem_map.mp hvb
                    have hv1 := modifyIndex_values h2 eb heb
                    obtain ⟨e1, he1, he1v⟩ := List.mem_map.mp hv1
                    have hv0 := modifyIndex_values h1 e1 he1
                    obtain ⟨e0, he0, he0v⟩ := List.mem_map.mp hv0
                    refine List.mem_map.mpr ⟨e0, he0, ?_⟩
                    rw [he0v, he1v, hebv, he3v]
    · simp only [hc, if_false] at h
      intro e he
      rw [← Option.some_inj.mp h] at he
      exact List.mem_map.mpr ⟨e, he, rfl⟩

theorem bubble_up_go_values :
    ∀ (f : Nat) (q : List Element) (j : Int) (q2 : List Element),
      bubble_up_go f q j = some q2 →
      ∀ e ∈ q2, e.value ∈ q.map (·.value) := by
  intro f
  induction f with
  | zero => intro q j q2 h; simp [bubble_up_go] at h
  | succ f ih =>
    intro q j q2 h
    unfold bubble_up_go at h
    cases ha : pyGet q j with
    | none => rw [ha] at h; simp at h
    | some a =>
      rw [ha] at h
      simp only [Option.bind_eq_bind, Option.some_bind] at h
      cases hp : pyGet q ((j - 1).fdiv 2) with
      | none => rw [hp] at h; simp at h
      | some p =>
        rw [hp] at h
        simp only [Option.bind_eq_bind, Option.some_bind] at h
        by_cases hk : a.key < p.key
        · simp only [hk, if_true] at h
          cases h1 : modifyIndex q j ((j - 1).fdiv 2) with
          | none => rw [h1] at h; simp at h
          | some q1 =>
            rw [h1] at h
            simp only [Option.bind_eq_bind, Option.some_bind] at h
            cases h2 : modifyIndex q1 ((j - 1).fdiv 2) j with
            | none => rw [h2] at h; simp at h
            | some qb =>
              rw [h2] at h
              simp only [Option.bind_eq_bind, Option.some_bind] at h
              cases h3 : pySwap qb j ((j - 1).fdiv 2) with
              | none => rw [h3] at h; simp at h
              | some q3 =>
                rw [h3] at h
                simp only [Option.bind_eq_bind, Option.some_bind] at h
                intro e he
                have hv3 := ih q3 _ q2 h e he
                obtain ⟨e3, he3, he3v⟩ := List.mem_map.mp hv3
                have hvb := pySwap_values h3 e3 he3
                obtain ⟨eb, heb, hebv⟩ := List.mem_map.mp hvb
                have hv1 := modifyIndex_values h2 eb heb
                obtain ⟨e1, he1, he1v⟩ := List.mem_map.mp hv1
                have hv0 := modifyIndex_values h1 e1 he1
                obtain ⟨e0, he0, he0v⟩ := List.mem_map.mp hv0
                refine List.mem_map.mpr ⟨e0, he0, ?_⟩
                rw [he0v, he1v, hebv, he3v]
        · simp only [hk, if_false] at h
          intro e he
          rw [← Option.some_inj.mp h] at he
          exact List.mem_map.mpr ⟨e, he, rfl⟩

theorem bubble_up_values {q q2 : List Element} {j : Int}
    (h : bubble_up q j = some q2) :
    ∀ e ∈ q2, e.value ∈ q.map (·.value) := by
  unfold bubble_up at h
  by_cases hj : j > 0
  · rw [if_pos hj] at h
    exact bubble_up_go_values _ q j q2 h
  · rw [if_neg hj] at h
    intro e he
    rw [← Option.some_inj.mp h] at he
    exact List.mem_map.mpr ⟨e, he, rfl⟩

theorem bubble_down_values {q q2 : List Element} {j : Int}
    (h : bubble_down q j = some q2) :
    ∀ e ∈ q2, e.value ∈ q.map (·.value) :=
  bubble_down_go_values _ q j q2 h

theorem add_values {apq apq2 : APQ} {k : Int} {it : L} {el : Element}
    (h : apq.add k it = some (apq2, el)) :
    ∀ e ∈ apq2.queue, e.value ∈ apq.queue.map (·.value) ∨ e.value = it := by
  unfold APQ.add at h
  cases hb : bubble_up (apq.queue ++ [⟨k, it, (apq.queue.length : Int),
      apq.ctr⟩]) (apq.queue.length : Int) with
  | none => rw [hb] at h; simp at h
  | some q2 =>
    rw [hb] at h
    simp only [Option.map_some'] at h
    have hq : apq2.queue = q2 :=
      (congrArg (fun r => r.1.queue) (Option.some_inj.mp h)).symm
    intro e he
    rw [hq] at he
    have := bubble_up_values hb e he
    obtain ⟨e0, he0, he0v⟩ := List.mem_map.mp this
    rcases List.mem_append.mp he0 with h2 | h2
    · exact Or.inl (List.mem_map.mpr ⟨e0, h2, he0v⟩)
    · simp at h2
      rw [← he0v, h2]
      exact Or.inr rfl

theorem getLast?_mem {q : List Element} {e : Element}
    (h : q.getLast? = some e) : e ∈ q := by
  obtain ⟨ys, hys⟩ := List.getLast?_eq_some_iff.mp h
  rw [hys]
  simp

theorem remove_min_values {apq apq2 : APQ} {mn : Element}
    (h : apq.remove_min = some (apq2, mn)) :
    mn.value ∈ apq.queue.map (·.value) ∧
    ∀ e ∈ apq2.queue, e.value ∈ apq.queue.map (·.value) := by
  unfold APQ.remove_min at h
  cases h1 : modifyIndex apq.queue 0 ((apq.queue.length : Int) - 1) with
  | none => rw [h1] at h; simp at h
  | some q1 =>
    rw [h1] at h
    simp only [Option.bind_eq_bind, Option.some_bind] at h
    cases h2 : modifyIndex q1 ((apq.queue.length : Int) - 1) 0 with
    | none => rw [h2] at h; simp at h
    | some q2 =>
      rw [h2] at h
      simp only [Option.bind_eq_bind, Option.some_bind] at h
      cases h3 : pySwap q2 0 (-1) with
      | none => rw [h3] at h; simp at h
      | some q3 =>
        rw [h3] at h
        simp only [Option.bind_eq_bind, Option.some_bind] at h
        cases h4 : q3.getLast? with
        | none => rw [h4] at h; simp at h
        | some removed =>
          rw [h4] at h
          simp only [Option.bind_eq_bind, Option.some_bind] at h
          cases h5 : bubble_down q3.dropLast 0 with
          | none => rw [h5] at h; simp at h
          | some q5 =>
            rw [h5] at h
            simp only [Option.bind_eq_bind, Option.some_bind] at h
            have hpair := Option.some_inj.mp h
            have hq : apq2.queue = q5 :=
              (congrArg (fun r => r.1.queue) hpair).symm
            have hmn : mn = removed :=
              (congrArg (fun r => r.2) hpair).symm
            have hq3 : ∀ e ∈ q3, e.value ∈ apq.queue.map (·.value) := by
              intro e he
              have := pySwap_values h3 e he
              obtain ⟨e2, he2, he2v⟩ := List.mem_map.mp this
              have := modifyIndex_values h2 e2 he2
              obtain ⟨e1, he1, he1v⟩ := List.mem_map.mp this
              have := modifyIndex_values h1 e1 he1
              obtain ⟨e0, he0, he0v⟩ := List.mem_map.mp this
              refine List.mem_map.mpr ⟨e0, he0, ?_⟩
              rw [he0v, he1v, he2v]
            constructor
            · rw [hmn]
              exact hq3 removed (getLast?_mem h4)
            · intro e he
              rw [hq] at he
              have := bubble_down_values h5 e he
              obtain ⟨e2, he2, he2v⟩ := List.mem_map.mp this
              have he2q3 : e2 ∈ q3 := List.dropLast_subset _ he2
              have := hq3 e2 he2q3
              obtain ⟨e0, he0, he0v⟩ := List.mem_map.mp this
              refine List.mem_map.mpr ⟨e0, he0, ?_⟩
              rw [he0v, he2v]

theorem update_key_values {apq apq2 : APQ} {hd : Nat} {nk : Int}
    (h : apq.update_key hd nk = some apq2) :
    ∀ e ∈ apq2.queue, e.value ∈ apq.queue.map (·.value) := by
  unfold APQ.update_key at h
  cases hp : apq.queue.findIdx? (fun e => e.eid = hd) with
  | none => rw [hp] at h; simp at h
  | some p =>
    rw [hp] at h
    simp only [Option.bind_eq_bind, Option.some_bind] at h
    cases hel : apq.queue[p]? with
    | none => rw [hel] at h; simp at h
    | some element =>
      rw [hel] at h
      simp only [Option.bind_eq_bind, Option.some_bind] at h
      have hset : ∀ (nk2 : Int) e2,
          e2 ∈ apq.queue.set p { element with key := nk2 } →
          e2.value ∈ apq.queue.map (·.value) := by
        intro nk2 e2 he2
        rcases List.mem_or_eq_of_mem_set he2 with h2 | h2
        · exact List.mem_map.mpr ⟨e2, h2, rfl⟩
        · rw [h2]
          exact List.mem_map.mpr ⟨element, mem_of_getElem? hel, rfl⟩
      by_cases hgt : element.key > nk
      · rw [if_pos hgt] at h
        cases hb : bubble_up (apq.queue.set p { element with key := nk })
            element.index with
        | none => rw [hb] at h; simp at h
        | some q2 =>
          rw [hb] at h
          simp only [Option.map_some'] at h
          have hq : apq2.queue = q2 :=
            (congrArg (fun r => r.queue) (Option.some_inj.mp h)).symm
          intro e he
          rw [hq] at he
          have := bubble_up_values hb e he
          obtain ⟨e2, he2, he2v⟩ := List.mem_map.mp this
          have := hset nk e2 he2
          obtain ⟨e0, he0, he0v⟩ := List.mem_map.mp this
          exact List.mem_map.mpr ⟨e0, he0, by rw [he0v, he2v]⟩
      · rw [if_neg hgt] at h
        by_cases hlt : element.key < nk
        · rw [if_pos hlt] at h
          cases hb : bubble_down (apq.queue.set p { element with key := nk })
              element.index with
          | none => rw [hb] at h; simp at h
          | some q2 =>
            rw [hb] at h
            simp only [Option.map_some'] at h
            have hq : apq2.queue = q2 :=
              (congrArg (fun r => r.queue) (Option.some_inj.mp h)).symm
            intro e he
            rw [hq] at he
            have := bubble_down_values hb e he
            obtain ⟨e2, he2, he2v⟩ := List.mem_map.mp this
            have := hset nk e2 he2
            obtain ⟨e0, he0, he0v⟩ := List.mem_map.mp this
            exact List.mem_map.mpr ⟨e0, he0, by rw [he0v, he2v]⟩
        · rw [if_neg hlt] at h
          have hq : apq2 = apq := (Option.some_inj.mp h).symm
          intro e he
          rw [hq] at he
          exact List.mem_map.mpr ⟨e, he, rfl⟩

theorem relax_values {closed : Closed} {minkey : Int} {vert : L}
    {v : Vertex} {st st2 : APQ × List (L × Option Nat) × List (L × Option L)}
    {edge : Edge} (h : relax closed minkey vert v st edge = .ok st2) :
    ∀ e ∈ st2.1.queue, e.value ∈ st.1.queue.map (·.value) ∨
      ∃ o, edge.opposite v = some o ∧ o.elem = e.value := by
  unfold relax at h
  split at h
  · exact absurd h (by simp)
  · next opp hopp =>
    split at h
    · have hst : st = st2 := Except.ok.inj h
      intro e he
      rw [← hst] at he
      exact Or.inl (List.mem_map.mpr ⟨e, he, rfl⟩)
    · split at h
      · split at h
        · exact absurd h (by simp)
        · next apq2 added hadd =>
          have hst : ((apq2 : APQ), dput st.2.1 opp.elem (some added.eid),
              dput st.2.2 opp.elem (some vert)) = st2 :=
            Except.ok.inj h
          intro e he
          rw [← hst] at he
          rcases add_values hadd e he with h2 | h2
          · exact Or.inl h2
          · exact Or.inr ⟨opp, hopp, h2.symm⟩
      · split at h
        · exact absurd h (by simp)
        · split at h
          · exact absurd h (by simp)
          · split at h
            · split at h
              · exact absurd h (by simp)
              · next apq2 hupd =>
                have hst : ((apq2 : APQ), st.2.1,
                    dput st.2.2 opp.elem (some vert)) = st2 :=
                  Except.ok.inj h
                intro e he
                rw [← hst] at he
                exact Or.inl (update_key_values hupd e he)
            · have hst : st = st2 := Except.ok.inj h
              intro e he
              rw [← hst] at he
              exact Or.inl (List.mem_map.mpr ⟨e, he, rfl⟩)

theorem foldlM_relax_values :
    ∀ (edges : List Edge) (closed : Closed) (minkey : Int) (vert : L)
      (v : Vertex)
      (st st2 : APQ × List (L × Option Nat) × List (L × Option L)),
      edges.foldlM (relax closed minkey vert v) st = .ok st2 →
      ∀ e ∈ st2.1.queue, e.value ∈ st.1.queue.map (·.value) ∨
        ∃ ed ∈ edges, ∃ o, ed.opposite v = some o ∧ o.elem = e.value := by
  intro edges
  induction edges with
  | nil =>
    intro closed mk vert v st st2 h e he
    have hst : st = st2 := by
      have h2 : (Except.ok st : Except Err _) = .ok st2 := h
      exact Except.ok.inj h2
    rw [← hst] at he
    exact Or.inl (List.mem_map.mpr ⟨e, he, rfl⟩)
  | cons ed rest ih =>
    intro closed mk vert v st st2 h e he
    rw [List.foldlM_cons] at h
    cases hfirst : relax closed mk vert v st ed with
    | error er =>
      rw [hfirst] at h
      have h2 : (Except.error er : Except Err _) = .ok st2 := h
      exact absurd h2 (by simp)
    | ok st1 =>
      rw [hfirst] at h
      have h2 : rest.foldlM (relax closed mk vert v) st1 = .ok st2 := h
      rcases ih closed mk vert v st1 st2 h2 e he with h3 |
        ⟨ed2, hed2, o, ho, hoe⟩
      · obtain ⟨e1, he1, he1v⟩ := List.mem_map.mp h3
        rcases relax_values hfirst e1 he1 with h4 | ⟨o, ho, hoe⟩
        · rw [← he1v]
          exact Or.inl h4
        · exact Or.inr ⟨ed, List.mem_cons_self _ _, o, ho, by
            rw [hoe, he1v]⟩
      · exact Or.inr ⟨ed2, List.mem_cons_of_mem _ hed2, o, ho, hoe⟩

theorem dstep_sound {look : L → Except Err (Option Vertex)} {adj : Adj}
    {st st2 : DState} (h : dstep look adj st = .ok st2) :
    ∃ vert, vert ∈ st.apq.queue.map (·.value) ∧
      (∀ l ∈ dkeys st2.closed, l ∈ dkeys st.closed ∨ l = vert) ∧
      (∀ e ∈ st2.apq.queue, e.value ∈ st.apq.queue.map (·.value) ∨
        stepRel look adj vert e.value) := by
  unfold dstep at h
  split at h
  · exact absurd h (by simp)
  · next apq1 mn hmin =>
    have hmn := remove_min_values hmin
    split at h
    · exact absurd h (by simp)
    · next x locs1 hlocs =>
      split at h
      · exact absurd h (by simp)
      · next pred preds1 hpreds =>
        split at h
        · exact absurd h (by simp)
        · next vo hlook =>
          refine ⟨mn.value, hmn.1, ?_⟩
          split at h
          · have hst : (⟨apq1, locs1, preds1,
                dput st.closed mn.value (mn.key, pred)⟩ : DState) = st2 :=
              Except.ok.inj h
            rw [← hst]
            refine ⟨fun l hl => dkeys_dput _ _ _ l hl |>.symm.imp id id, ?_⟩
            intro e he
            exact Or.inl (hmn.2 e he)
          · next v =>
            split at h
            · have hst : (⟨apq1, locs1, preds1,
                  dput st.closed mn.value (mn.key, pred)⟩ : DState) = st2 :=
                Except.ok.inj h
              rw [← hst]
              refine ⟨fun l hl => dkeys_dput _ _ _ l hl |>.symm.imp id id, ?_⟩
              intro e he
              exact Or.inl (hmn.2 e he)
            · next m hm =>
              split at h
              · exact absurd h (by simp)
              · next apq2 locs2 preds2 hfold =>
                have hst : (⟨apq2, locs2, preds2,
                    dput st.closed mn.value (mn.key, pred)⟩ : DState) =
                    st2 := Except.ok.inj h
                rw [← hst]
                refine ⟨fun l hl =>
                  dkeys_dput _ _ _ l hl |>.symm.imp id id, ?_⟩
                intro e he
                rcases foldlM_relax_values _ _ _ _ _ _ _ hfold e he with
                  h2 | ⟨ed, hed, o, ho, hoe⟩
                · obtain ⟨e1, he1, he1v⟩ := List.mem_map.mp h2
                  rw [← he1v]
                  exact Or.inl (hmn.2 e1 he1)
                · obtain ⟨q, hq, hq2⟩ := List.mem_map.mp hed
                  refine Or.inr ⟨v, m, q, o, ?_, hm, hq, ?_, hoe⟩
                  · rw [hlook]
                  · rw [hq2]
                    exact ho

theorem dloop_reaches (look : L → Except Err (Option Vertex)) (adj : Adj)
    (src : L) :
    ∀ (fuel : Nat) (st : DState) (closed : Closed),
      (∀ l, (l ∈ dkeys st.closed ∨ l ∈ st.apq.queue.map (·.value)) →
        ReachesVia look adj src l) →
      dloop look adj fuel st = .ok closed →
      ∀ l ∈ dkeys closed, ReachesVia look adj src l := by
  intro fuel
  induction fuel with
  | zero =>
    intro st closed hinv h l hl
    unfold dloop at h
    split at h
    · have : st.closed = closed := Except.ok.inj h
      rw [← this] at hl
      exact hinv l (Or.inl hl)
    · exact absurd h (by simp)
  | succ f ih =>
    intro st closed hinv h l hl
    unfold dloop at h
    split at h
    · have : st.closed = closed := Except.ok.inj h
      rw [← this] at hl
      exact hinv l (Or.inl hl)
    · split at h
      · exact absurd h (by simp)
      · next st2 hstep =>
        obtain ⟨vert, hvert, hclosed, hqueue⟩ := dstep_sound hstep
        refine ih st2 closed ?_ h l hl
        intro l2 hl2
        rcases hl2 with hl2 | hl2
        · rcases hclosed l2 hl2 with h2 | h2
          · exact hinv l2 (Or.inl h2)
          · rw [h2]
            exact hinv vert (Or.inr hvert)
        · obtain ⟨e, he, hev⟩ := List.mem_map.mp hl2
          rcases hqueue e he with h2 | h2
          · rw [← hev]
            exact hinv e.value (Or.inr h2)
          · rw [← hev]
            exact Relation.ReflTransGen.tail (hinv vert (Or.inr hvert)) h2

theorem dijkstraCore_reaches {look : L → Except Err (Option Vertex)}
    {adj : Adj} {src : L} {fuel : Nat} {closed : Closed}
    (h : dijkstraCore look adj src fuel = .ok closed) :
    ∀ l ∈ dkeys closed, ReachesVia look adj src l := by
  have h2 : dloop look adj fuel
      ⟨⟨[⟨0, src, 0, 0⟩], 1⟩, dput [] src none, dput [] src none, []⟩ =
      .ok closed := h
  refine dloop_reaches look adj src fuel _ closed ?_ h2
  intro l hl
  rcases hl with hl | hl
  · simp [dkeys] at hl
  · simp at hl
    rw [hl]
    exact Relation.ReflTransGen.refl

theorem sp_keyError {rm : RouteMap} {v w : L} {closed : Closed}
    (hne : w ≠ v) (hd : dijkstraRM rm v = .ok closed)
    (hnc : dget closed w = none) :
    RouteMap.sp rm v w = .error .keyError := by
  unfold RouteMap.sp
  rw [hd]
  show spLoop rm closed v (closed.length + 1) (some w) = .error .keyError
  unfold spLoop
  rw [if_neg (fun hh => hne (Option.some_inj.mp hh))]
  split
  · next heq => exact absurd heq (by simp)
  · next vtx heq =>
    have hvtx : vtx = w := (Option.some_inj.mp heq).symm
    subst hvtx
    split
    · next er heq2 =>
      unfold RouteMap.get_vertex_by_label at heq2
      split at heq2
      · exact absurd heq2 (by simp)
      · have her := Except.error.inj heq2
        rw [← her]
    · next vtx2 heq2 =>
      split
      · rfl
      · next co heq3 =>
        split
        · rfl
        · next entry heq4 =>
          rw [hnc] at heq4
          exact absurd heq4 (by simp)

/-- C5 amended: every label in the closed table returned by dijkstra (on
a Graph or on a RouteMap) is reachable from the source along traversal
steps, so an unreachable label is absent; and sp on a destination that
was never finalized fails at once with the untyped KeyError of a dict
lookup rather than looping (the source has no typed Unreachable error). -/
theorem C5_amended :
    (∀ (g : Graph) (src l : L) (closed : Closed),
      dijkstraG g src = .ok closed →
      ¬ ReachesVia (fun x => .ok (g.get_vertex_by_label x)) g.struct src l →
      dget closed l = none) ∧
    (∀ (rm : RouteMap) (src l : L) (closed : Closed),
      dijkstraRM rm src = .ok closed →
      ¬ ReachesVia (fun x => (rm.get_vertex_by_label x).map some)
        rm.g.struct src l →
      dget closed l = none) ∧
    (∀ (rm : RouteMap) (v w : L) (closed : Closed),
      w ≠ v → dijkstraRM rm v = .ok closed → dget closed w = none →
      RouteMap.sp rm v w = .error .keyError) := by
  refine ⟨?_, ?_, fun rm v w closed hne hd hnc => sp_keyError hne hd hnc⟩
  · intro g src l closed h hnr
    rw [dget_eq_none_iff]
    intro hmem
    exact hnr (dijkstraCore_reaches h l hmem)
  · intro rm src l closed h hnr
    rw [dget_eq_none_iff]
    intro hmem
    exact hnr (dijkstraCore_reaches h l hmem)

/-- C5 witness: on the empty graph the run from source 0 closes exactly
the source, and label 5 (unreachable: the empty adjacency offers no
step) is absent; on rmTwo, sp toward the never-finalized label 1 raises
KeyError. -/
theorem C5_amended_witness :
    dget [((0 : L), ((0 : Int), (none : Option L)))] 5 = none ∧
    RouteMap.sp rmTwo 0 1 = .error .keyError := by
  constructor
  · refine C5_amended.1 Graph.empty 0 5 [(0, (0, none))] rfl ?_
    intro hr
    rcases Relation.ReflTransGen.cases_head hr with h1 | ⟨c, hc, _⟩
    · exact absurd h1 (by decide)
    · obtain ⟨v, m, q, o, _, hm, _, _, _⟩ := hc
      simp [Graph.empty, dget] at hm
  · exact C5_amended.2.2 rmTwo 0 1 [(0, (0, none))] (by decide) rfl
      (by decide)

end DSM
